import Mathlib

/-!
Verification development for the tile-analysis subsystem declared in
`third_party/xla/xla/service/gpu/model/tile_analysis.h`: half-open integer
ranges and domains, an affine-expression algebra with conservative interval
bound inference, indexing maps with simplification, per-operation indexing
derivation rules, and symbolic tile propagation.

The repository provides only the header (declarations plus documentation
comments); the behavior of every operation is modelled from the accompanying
specification, faithful to its words, and the claims are settled against
those models.
-/

namespace TileAnalysis

/-- Range represents a semi-closed interval `[lower_bound, upper_bound)`,
mirroring `struct Range` of tile_analysis.h. -/
structure Range where
  lower_bound : Int
  upper_bound : Int
deriving DecidableEq, Repr

/-- Membership of an integer in a half-open range. -/
def Range.contains (r : Range) (x : Int) : Prop :=
  r.lower_bound ≤ x ∧ x < r.upper_bound

instance (r : Range) (x : Int) : Decidable (r.contains x) := by
  unfold Range.contains; infer_instance

/-- `r₂` is a (possibly equal) sub-range of `r₁`: every point of `r₂` lies in `r₁`. -/
def Range.subset (r₂ r₁ : Range) : Prop :=
  r₁.lower_bound ≤ r₂.lower_bound ∧ r₂.upper_bound ≤ r₁.upper_bound

/-- Domain contains ranges for dimensions and symbols of an affine map,
mirroring `struct Domain` of tile_analysis.h. -/
structure Domain where
  dimension_ranges : List Range
  symbol_ranges : List Range
deriving DecidableEq, Repr

/-- Modelled from the spec: `Domain::FromUpperBounds` (declared only in
tile_analysis.h) builds the range `[0, bound)` for every entry, dimension
ranges first then symbol ranges, preserving input order. -/
def Domain.FromUpperBounds (dimension_upper_bounds symbol_upper_bounds : List Int) : Domain :=
  { dimension_ranges := dimension_upper_bounds.map fun ub => ⟨0, ub⟩
    symbol_ranges := symbol_upper_bounds.map fun ub => ⟨0, ub⟩ }

/-- The closed tagged variant of affine expressions from the spec's data model:
constant; dimension reference; symbol reference; sum; product by an integer
constant; floor division by a (positive) integer constant; modulo by a
(positive) integer constant. -/
inductive AffineExpr where
  | const (c : Int)
  | dim (i : Nat)
  | sym (j : Nat)
  | add (a b : AffineExpr)
  | mul (a : AffineExpr) (c : Int)
  | floordiv (a : AffineExpr) (c : Int)
  | mod (a : AffineExpr) (c : Int)
deriving DecidableEq, Repr

/-- Evaluation of an affine expression at an assignment of dimension values
`ds` and symbol values `ss`. Floor division and modulo are Euclidean
(`Int.ediv` / `Int.emod`), which agree with floor semantics for the positive
divisors required by the data model. -/
def AffineExpr.eval (ds ss : List Int) : AffineExpr → Int
  | .const c => c
  | .dim i => ds.getD i 0
  | .sym j => ss.getD j 0
  | .add a b => a.eval ds ss + b.eval ds ss
  | .mul a c => a.eval ds ss * c
  | .floordiv a c => (a.eval ds ss) / c
  | .mod a c => (a.eval ds ss) % c

/-- Well-formedness of an affine expression with respect to a dimension count
`D` and symbol count `S`: variable references are in range and all divisors
are positive, as the data model requires. -/
def AffineExpr.wfB (D S : Nat) : AffineExpr → Bool
  | .const _ => true
  | .dim i => decide (i < D)
  | .sym j => decide (j < S)
  | .add a b => a.wfB D S && b.wfB D S
  | .mul a _ => a.wfB D S
  | .floordiv a c => a.wfB D S && decide (0 < c)
  | .mod a c => a.wfB D S && decide (0 < c)

/-- Pointwise membership of an assignment in a list of ranges (equal lengths
required). -/
def valuesInRanges : List Range → List Int → Bool
  | [], [] => true
  | r :: rs, x :: xs => decide (r.contains x) && valuesInRanges rs xs
  | _, _ => false

/-- A closed interval `[min, max]` as produced by bound inference. -/
structure Interval where
  min : Int
  max : Int
deriving DecidableEq, Repr

/-- `i₂` is contained in `i₁`. -/
def Interval.subset (i₂ i₁ : Interval) : Prop :=
  i₁.min ≤ i₂.min ∧ i₂.max ≤ i₁.max

/-- The closed interval of values of a half-open range. -/
def Range.toInterval (r : Range) : Interval :=
  ⟨r.lower_bound, r.upper_bound - 1⟩

/-- Modelled from the spec: conservative interval bound inference for an
affine expression from the domain ranges of its free variables (the routine
driving `IndexingMap::Simplify`, whose implementation is absent from the
repository excerpt). Sums add bounds; multiplication by a constant scales
bounds, flipping the order if the constant is negative; floor division
divides the bounds by the divisor; modulo derives `[0, divisor - 1]` from
the divisor. -/
def inferBounds (dims syms : List Range) : AffineExpr → Interval
  | .const c => ⟨c, c⟩
  | .dim i => (dims.getD i ⟨0, 0⟩).toInterval
  | .sym j => (syms.getD j ⟨0, 0⟩).toInterval
  | .add a b =>
    let ia := inferBounds dims syms a
    let ib := inferBounds dims syms b
    ⟨ia.min + ib.min, ia.max + ib.max⟩
  | .mul a c =>
    let ia := inferBounds dims syms a
    if 0 ≤ c then ⟨ia.min * c, ia.max * c⟩ else ⟨ia.max * c, ia.min * c⟩
  | .floordiv a c =>
    let ia := inferBounds dims syms a
    ⟨ia.min / c, ia.max / c⟩
  | .mod _ c => ⟨0, c - 1⟩

/-- Pointwise tightening of range lists (out-of-range lookups tighten
trivially since both default to the empty range). -/
def TighterRanges (rs₂ rs₁ : List Range) : Prop :=
  ∀ i : Nat, (rs₂.getD i ⟨0, 0⟩).subset (rs₁.getD i ⟨0, 0⟩)

/-- An injective code for affine expressions, used to order the terms of a
canonical sum by variable kind then index (and arbitrarily but consistently
for composite terms). -/
def AffineExpr.encodeN : AffineExpr → Nat
  | .const c => Nat.pair 0 (Encodable.encode c)
  | .dim i => Nat.pair 1 i
  | .sym j => Nat.pair 2 j
  | .add a b => Nat.pair 3 (Nat.pair a.encodeN b.encodeN)
  | .mul a c => Nat.pair 4 (Nat.pair a.encodeN (Encodable.encode c))
  | .floordiv a c => Nat.pair 5 (Nat.pair a.encodeN (Encodable.encode c))
  | .mod a c => Nat.pair 6 (Nat.pair a.encodeN (Encodable.encode c))

/-- A canonical sum is a list of (atom, coefficient) terms plus a constant. -/
abbrev Terms := List (AffineExpr × Int)

/-- Scale every coefficient of a term list by a nonzero constant. -/
def scaleTerms (ts : Terms) (c : Int) : Terms :=
  ts.map fun t => (t.1, t.2 * c)

/-- Merge two term lists sorted by atom code: equal atoms have their
coefficients added (the term is dropped when they cancel), distinct atoms
are interleaved in code order. -/
def mergeTerms : Terms → Terms → Terms
  | [], ys => ys
  | x :: xs, [] => x :: xs
  | (a, ka) :: xs, (b, kb) :: ys =>
    if a = b then
      (if ka + kb = 0 then mergeTerms xs ys else (a, ka + kb) :: mergeTerms xs ys)
    else if a.encodeN < b.encodeN then
      (a, ka) :: mergeTerms xs ((b, kb) :: ys)
    else
      (b, kb) :: mergeTerms ((a, ka) :: xs) ys
termination_by xs ys => xs.length + ys.length

/-- Render one term back into an affine expression. -/
def denoteTerm : AffineExpr × Int → AffineExpr
  | (a, k) => if k = 1 then a else .mul a k

/-- Render a canonical sum back into an affine expression: terms in order,
right-nested, with the constant last and omitted when zero. -/
def denoteNF : Terms → Int → AffineExpr
  | [], c => .const c
  | [t], c => if c = 0 then denoteTerm t else .add (denoteTerm t) (.const c)
  | t :: t' :: ts, c => .add (denoteTerm t) (denoteNF (t' :: ts) c)

/-- Value of a term list under an assignment. -/
def evalTerms (ds ss : List Int) : Terms → Int
  | [] => 0
  | (a, k) :: ts => k * a.eval ds ss + evalTerms ds ss ts

/-- The head constructor test used to fold `floordiv`/`mod` of a pure
constant. -/
def AffineExpr.constVal? : AffineExpr → Option Int
  | .const c => some c
  | _ => none

/-- The bound-inference test justifying the canonicalization rules
`floordiv(e, k) → 0` and `mod(e, k) → e`: the expression is well formed and
its inferred interval lies inside `[0, k)`. -/
def collapses (dims syms : List Range) (e : AffineExpr) (k : Int) : Bool :=
  e.wfB dims.length syms.length &&
    decide (0 ≤ (inferBounds dims syms e).min) &&
    decide ((inferBounds dims syms e).max < k)

/-- Modelled from the spec: canonicalization of an affine expression under
the domain ranges of its free variables (the expression algebra behind
`IndexingMap::Simplify`, absent from the repository excerpt). Nested sums
are flattened, constant sub-terms folded, terms ordered by atom code,
`floordiv`/`mod` of a pure constant folded directly, and `floordiv(e, k)`
collapsed to `0` (resp. `mod(e, k)` to `e`) when bound inference proves
`0 ≤ e < k`. Returns the canonical sum. -/
def normalize (dims syms : List Range) : AffineExpr → Terms × Int
  | .const c => ([], c)
  | .dim i => ([(.dim i, 1)], 0)
  | .sym j => ([(.sym j, 1)], 0)
  | .add a b =>
    let x := normalize dims syms a
    let y := normalize dims syms b
    (mergeTerms x.1 y.1, x.2 + y.2)
  | .mul a c =>
    if c = 0 then ([], 0)
    else
      let x := normalize dims syms a
      (scaleTerms x.1 c, x.2 * c)
  | .floordiv a k =>
    let x := normalize dims syms a
    let e' := denoteNF x.1 x.2
    match e'.constVal? with
    | some c => ([], c / k)
    | none =>
      if collapses dims syms e' k then ([], 0)
      else ([(.floordiv e' k, 1)], 0)
  | .mod a k =>
    let x := normalize dims syms a
    let e' := denoteNF x.1 x.2
    match e'.constVal? with
    | some c => ([], c % k)
    | none =>
      if collapses dims syms e' k then x
      else ([(.mod e' k, 1)], 0)

/-- The simplified form of an affine expression under a domain. -/
def simplifyExpr (dims syms : List Range) (e : AffineExpr) : AffineExpr :=
  denoteNF (normalize dims syms e).1 (normalize dims syms e).2

/-- A term list sorted strictly by atom code. -/
def SortedTerms (ts : Terms) : Prop :=
  List.Pairwise (fun x y : AffineExpr × Int => x.1.encodeN < y.1.encodeN) ts

/-- An atom is self-normalizing: canonicalization returns it unchanged as a
single term with coefficient one. -/
def SelfNorm (dims syms : List Range) (a : AffineExpr) : Prop :=
  normalize dims syms a = ([(a, 1)], 0)

/-- The invariant of canonical sums produced by `normalize`: terms strictly
sorted by atom code, nonzero coefficients, self-normalizing atoms. -/
structure NFInv (dims syms : List Range) (nf : Terms × Int) : Prop where
  sorted : SortedTerms nf.1
  nonzero : ∀ z ∈ nf.1, z.2 ≠ 0
  selfnorm : ∀ z ∈ nf.1, SelfNorm dims syms z.1

/-- An affine map with a declared dimension count, symbol count, and an
ordered sequence of result expressions, mirroring `mlir::AffineMap` as used
by tile_analysis.h. -/
structure AffineMap where
  numDims : Nat
  numSymbols : Nat
  results : List AffineExpr
deriving DecidableEq, Repr

/-- An indexing map pairs an affine map with a domain, mirroring
`struct IndexingMap` of tile_analysis.h. -/
structure IndexingMap where
  affine_map : AffineMap
  domain : Domain
deriving DecidableEq, Repr

/-- A range containing exactly one point. -/
def Range.isSingleton (r : Range) : Bool :=
  decide (r.upper_bound = r.lower_bound + 1)

/-- The symbol ranges that survive simplification (the non-singleton ones). -/
def keptRanges (rs : List Range) : List Range :=
  rs.filter fun r => !r.isSingleton

/-- The substitution applied to symbol references by simplification: a symbol
whose range collapses to one point becomes that constant; surviving symbols
are renumbered consecutively. -/
def collapseSubst : List Range → Nat → AffineExpr
  | [], j => .sym j
  | r :: _, 0 => if r.isSingleton then .const r.lower_bound else .sym 0
  | r :: rs, j + 1 =>
    if r.isSingleton then collapseSubst rs j
    else
      match collapseSubst rs j with
      | .sym k => .sym (k + 1)
      | e => e

/-- Replace every symbol reference in an expression according to `σ`. -/
def substSyms (σ : Nat → AffineExpr) : AffineExpr → AffineExpr
  | .const c => .const c
  | .dim i => .dim i
  | .sym j => σ j
  | .add a b => .add (substSyms σ a) (substSyms σ b)
  | .mul a c => .mul (substSyms σ a) c
  | .floordiv a c => .floordiv (substSyms σ a) c
  | .mod a c => .mod (substSyms σ a) c

/-- Restrict a symbol assignment to the symbols whose range is not a
singleton (parallel to `keptRanges`). -/
def filterKeptVals : List Range → List Int → List Int
  | [], _ => []
  | _ :: _, [] => []
  | r :: rs, x :: xs =>
    if r.isSingleton then filterKeptVals rs xs else x :: filterKeptVals rs xs

/-- Modelled from the spec: `IndexingMap::Simplify` (declared only in
tile_analysis.h) simplifies every result expression under the map's domain;
a symbol whose range collapses to one point is substituted by that constant
and removed from the symbol list, shrinking both the symbol count and the
domain. Returns the new map and whether anything changed. -/
def IndexingMap.Simplify (m : IndexingMap) : IndexingMap × Bool :=
  let dims := m.domain.dimension_ranges
  let syms' := keptRanges m.domain.symbol_ranges
  let results' := m.affine_map.results.map fun e =>
    simplifyExpr dims syms' (substSyms (collapseSubst m.domain.symbol_ranges) e)
  let m' : IndexingMap :=
    { affine_map :=
        { numDims := m.affine_map.numDims
          numSymbols := syms'.length
          results := results' }
      domain := { dimension_ranges := dims, symbol_ranges := syms' } }
  (m', decide (m' ≠ m))

/-- Structural well-formedness of an indexing map: the domain provides one
range per dimension and symbol, and every result expression references only
declared variables with positive divisors. -/
def IndexingMap.wellFormed (m : IndexingMap) : Bool :=
  decide (m.domain.dimension_ranges.length = m.affine_map.numDims) &&
    decide (m.domain.symbol_ranges.length = m.affine_map.numSymbols) &&
    m.affine_map.results.all fun e => e.wfB m.affine_map.numDims m.affine_map.numSymbols

/-- The vector of input indices produced by the map at an assignment. -/
def IndexingMap.evalResults (m : IndexingMap) (ds ss : List Int) : List Int :=
  m.affine_map.results.map (AffineExpr.eval ds ss)

/-- Replace every dimension and symbol reference in an expression. -/
def AffineExpr.substVars (fd fs : Nat → AffineExpr) : AffineExpr → AffineExpr
  | .const c => .const c
  | .dim i => fd i
  | .sym j => fs j
  | .add a b => .add (a.substVars fd fs) (b.substVars fd fs)
  | .mul a c => .mul (a.substVars fd fs) c
  | .floordiv a c => .floordiv (a.substVars fd fs) c
  | .mod a c => .mod (a.substVars fd fs) c

/-- Modelled from the spec: functional composition of affine maps — each
result of the consumer map is rewritten by substituting its dimension
references with the producer map's corresponding result expressions; the
composed symbol list is the producer's symbols followed by the consumer's
own symbols. -/
def AffineMap.compose (producer consumer : AffineMap) : AffineMap :=
  { numDims := producer.numDims
    numSymbols := producer.numSymbols + consumer.numSymbols
    results := consumer.results.map fun e =>
      e.substVars (fun j => producer.results.getD j (.const 0))
        (fun s => .sym (producer.numSymbols + s)) }

/-- The identity affine map on `n` dimensions. -/
def identityAffineMap (n : Nat) : AffineMap :=
  { numDims := n, numSymbols := 0, results := (List.range n).map .dim }

/-- Modelled from the spec: `ComputeTransposeIndexingMap` (declared only in
tile_analysis.h) maps output dimension `i` to input dimension
`permutation[i]`. -/
def ComputeTransposeIndexingMap (permutation : List Nat) : AffineMap :=
  { numDims := permutation.length
    numSymbols := 0
    results := permutation.map .dim }

/-- The inverse of a permutation of `[0, p.length)`. -/
def inversePerm (p : List Nat) : List Nat :=
  (List.range p.length).map fun i => p.indexOf i

/-- The identity indexing map over a shape. -/
def identityIndexingMap (shape : List Int) : IndexingMap :=
  { affine_map := identityAffineMap shape.length
    domain := Domain.FromUpperBounds shape [] }

/-- Modelled from the spec: the output→input indexing map of a reverse
operation — each reversed axis `d` at size `n` maps to `n - 1 - d`, other
axes are identity; every output dimension ranges over `[0, size)`. -/
def ComputeReverseIndexingMap (shape : List Int) (revDims : List Nat) : IndexingMap :=
  { affine_map :=
      { numDims := shape.length
        numSymbols := 0
        results := (List.range shape.length).map fun k =>
          if k ∈ revDims then .add (.mul (.dim k) (-1)) (.const (shape.getD k 0 - 1))
          else .dim k }
    domain := Domain.FromUpperBounds shape [] }

/-- Modelled from the spec: the output→input indexing map of a reduce
operation — non-reduced axes stay dimensions (in order), each reduced axis
becomes one symbol ranged `[0, size)`. -/
def ComputeReduceOutputToInputIndexing (inShape : List Int) (rdims : List Nat) :
    IndexingMap :=
  let rank := inShape.length
  let kept := (List.range rank).filter fun i => i ∉ rdims
  let red := (List.range rank).filter fun i => i ∈ rdims
  { affine_map :=
      { numDims := kept.length
        numSymbols := red.length
        results := (List.range rank).map fun k =>
          if k ∈ rdims then .sym (red.indexOf k) else .dim (kept.indexOf k) }
    domain := Domain.FromUpperBounds (kept.map fun i => inShape.getD i 0)
      (red.map fun i => inShape.getD i 0) }

/-- Modelled from the spec: input→output indexing of reduce — the output
coordinates are the input coordinates at the non-reduced axes. -/
def ComputeReduceInputToOutputIndexing (inShape : List Int) (rdims : List Nat) :
    IndexingMap :=
  let rank := inShape.length
  let kept := (List.range rank).filter fun i => i ∉ rdims
  { affine_map :=
      { numDims := rank, numSymbols := 0, results := kept.map .dim }
    domain := Domain.FromUpperBounds inShape [] }

/-- The indexing map supplied for the init operand of a reduce: it is read
independently of the output coordinates. -/
def reduceInitIndexingMap (inShape : List Int) (rdims : List Nat) : IndexingMap :=
  let rank := inShape.length
  let kept := (List.range rank).filter fun i => i ∉ rdims
  { affine_map := { numDims := kept.length, numSymbols := 0, results := [] }
    domain := Domain.FromUpperBounds (kept.map fun i => inShape.getD i 0) [] }

/-- Modelled from the spec: output→input indexing of broadcast restricts to
the listed broadcast dimensions. -/
def ComputeBroadcastOutputToInputIndexing (outShape : List Int) (bdims : List Nat) :
    IndexingMap :=
  { affine_map :=
      { numDims := outShape.length, numSymbols := 0, results := bdims.map .dim }
    domain := Domain.FromUpperBounds outShape [] }

/-- Modelled from the spec: input→output indexing of broadcast reintroduces
the non-broadcast output dimensions as fresh symbols ranged over the output
shape. -/
def ComputeBroadcastInputToOutputIndexing (inShape outShape : List Int)
    (bdims : List Nat) : IndexingMap :=
  let rank := outShape.length
  let other := (List.range rank).filter fun i => i ∉ bdims
  { affine_map :=
      { numDims := inShape.length
        numSymbols := other.length
        results := (List.range rank).map fun k =>
          if k ∈ bdims then .dim (bdims.indexOf k) else .sym (other.indexOf k) }
    domain := Domain.FromUpperBounds inShape (other.map fun i => outShape.getD i 0) }

/-- Modelled from the spec: output→input indexing of slice — output
dimension `i` maps to `start_i + stride_i * d_i`. -/
def ComputeSliceOutputToInputIndexing (starts strides outShape : List Int) :
    IndexingMap :=
  { affine_map :=
      { numDims := outShape.length
        numSymbols := 0
        results := (List.range outShape.length).map fun k =>
          .add (.mul (.dim k) (strides.getD k 1)) (.const (starts.getD k 0)) }
    domain := Domain.FromUpperBounds outShape [] }

/-- Modelled from the spec: input→output indexing of slice. -/
def ComputeSliceInputToOutputIndexing (inShape starts strides : List Int) :
    IndexingMap :=
  { affine_map :=
      { numDims := inShape.length
        numSymbols := 0
        results := (List.range inShape.length).map fun k =>
          .floordiv (.add (.dim k) (.const (-(starts.getD k 0)))) (strides.getD k 1) }
    domain := Domain.FromUpperBounds inShape [] }

/-- The output shape of an edge pad. -/
def padOutShape (inShape low high : List Int) : List Int :=
  (List.range inShape.length).map fun k =>
    inShape.getD k 0 + low.getD k 0 + high.getD k 0

/-- Modelled from the spec: output→input indexing of an edge (non-interior)
pad — identity shifted by the low padding. -/
def ComputePadOutputToInputIndexing (inShape low high : List Int) : IndexingMap :=
  { affine_map :=
      { numDims := inShape.length
        numSymbols := 0
        results := (List.range inShape.length).map fun k =>
          .add (.dim k) (.const (-(low.getD k 0))) }
    domain := Domain.FromUpperBounds (padOutShape inShape low high) [] }

/-- Modelled from the spec: input→output indexing of an edge pad. -/
def ComputePadInputToOutputIndexing (inShape low : List Int) : IndexingMap :=
  { affine_map :=
      { numDims := inShape.length
        numSymbols := 0
        results := (List.range inShape.length).map fun k =>
          .add (.dim k) (.const (low.getD k 0)) }
    domain := Domain.FromUpperBounds inShape [] }

/-- Whether two shapes factor cleanly across a shared linearization: scanning
both shapes while accumulating group products, every group boundary must
align. -/
def canFactorGo : List Int → List Int → Int → Int → Bool
  | as, bs, pa, pb =>
    if pa = pb then
      match as, bs with
      | [], [] => true
      | a :: as', b :: bs' => canFactorGo as' bs' a b
      | _, _ => false
    else if pa < pb then
      match as with
      | [] => false
      | a :: as' => canFactorGo as' bs (pa * a) pb
    else
      match bs with
      | [] => false
      | b :: bs' => canFactorGo as bs' pa (pb * b)
termination_by as bs _ _ => as.length + bs.length

/-- Whether a reshape from `inShape` to `outShape` factors cleanly. -/
def canFactor (inShape outShape : List Int) : Bool :=
  canFactorGo inShape outShape 1 1

/-- The product of a list of integers. -/
def listProd (xs : List Int) : Int := xs.foldl (· * ·) 1

/-- Row-major strides of a shape (product of the sizes after each axis). -/
def strideList : List Int → List Int
  | [] => []
  | _ :: xs => listProd xs :: strideList xs

/-- The linearized index of a coordinate vector over `shape`. -/
def linearIndexExpr (shape : List Int) : AffineExpr :=
  (List.range shape.length).foldr
    (fun j acc => .add (.mul (.dim j) ((strideList shape).getD j 1)) acc) (.const 0)

/-- Modelled from the spec: output→input indexing of a cleanly factoring
reshape, as the flatten-then-unflatten composition. -/
def ComputeReshapeOutputToInputIndexing (inShape outShape : List Int) : IndexingMap :=
  { affine_map :=
      { numDims := outShape.length
        numSymbols := 0
        results := (List.range inShape.length).map fun k =>
          .mod (.floordiv (linearIndexExpr outShape) ((strideList inShape).getD k 1))
            (inShape.getD k 1) }
    domain := Domain.FromUpperBounds outShape [] }

/-- The failure taxonomy of the indexing derivation rules. -/
inductive IndexingError where
  | unknownOpKind
  | dataDependentIndices
  | nonFactoringReshape
  | interiorPadding
  | invalidOperandOrOutputId
deriving DecidableEq, Repr

/-- The closed tagged variant of supported operation kinds (each with its
statically known attributes) plus data-dependent and unknown kinds, per the
spec's design note for per-operation dispatch. -/
inductive HloOp where
  | elementwise (shape : List Int) (numOperands : Nat)
  | broadcast (inShape outShape : List Int) (dimensions : List Nat)
  | reduce (inShape : List Int) (dimensions : List Nat)
  | reverse (shape : List Int) (dimensions : List Nat)
  | transpose (inShape : List Int) (permutation : List Nat)
  | reshape (inShape outShape : List Int)
  | slice (inShape starts strides outShape : List Int)
  | pad (inShape low high interior : List Int)
  | dynamicSlice (inShape : List Int)
  | gather (inShape : List Int)
  | unknownOp
deriving DecidableEq, Repr

/-- Indexing maps for the operands of an instruction relative to one output,
mirroring `struct HloInstructionIndexing` (operand index → set of maps,
modelled as an operand-indexed list of map lists). -/
structure HloInstructionIndexing where
  indexing_maps : List (List IndexingMap)
deriving DecidableEq, Repr

/-- Mirrors `HloInstructionIndexing::FromIndexingMaps`: one singleton map
set per operand, in operand order. -/
def HloInstructionIndexing.FromIndexingMaps (maps : List IndexingMap) :
    HloInstructionIndexing :=
  ⟨maps.map fun m => [m]⟩

/-- Modelled from the spec: `ComputeOutputToInputIndexing` (declared only in
tile_analysis.h) dispatches on the operation kind and returns the indexing
maps of all operands for one output, or an explicit failure naming the
unsupported aspect. -/
def ComputeOutputToInputIndexing (op : HloOp) (output_id : Nat) :
    Except IndexingError HloInstructionIndexing :=
  if output_id ≠ 0 then .error .invalidOperandOrOutputId
  else
    match op with
    | .elementwise shape n => .ok ⟨List.replicate n [identityIndexingMap shape]⟩
    | .broadcast _ outShape dims =>
      .ok (.FromIndexingMaps [ComputeBroadcastOutputToInputIndexing outShape dims])
    | .reduce inShape dims =>
      .ok (.FromIndexingMaps [ComputeReduceOutputToInputIndexing inShape dims,
        reduceInitIndexingMap inShape dims])
    | .reverse shape dims => .ok (.FromIndexingMaps [ComputeReverseIndexingMap shape dims])
    | .transpose inShape perm =>
      .ok (.FromIndexingMaps
        [{ affine_map := ComputeTransposeIndexingMap perm
           domain := Domain.FromUpperBounds (perm.map fun i => inShape.getD i 0) [] }])
    | .reshape i o =>
      if canFactor i o then .ok (.FromIndexingMaps [ComputeReshapeOutputToInputIndexing i o])
      else .error .nonFactoringReshape
    | .slice _ starts strides outShape =>
      .ok (.FromIndexingMaps [ComputeSliceOutputToInputIndexing starts strides outShape])
    | .pad inShape low high interior =>
      if interior.any fun x => decide (0 < x) then .error .interiorPadding
      else .ok (.FromIndexingMaps [ComputePadOutputToInputIndexing inShape low high,
        reduceInitIndexingMap inShape []])
    | .dynamicSlice _ => .error .dataDependentIndices
    | .gather _ => .error .dataDependentIndices
    | .unknownOp => .error .unknownOpKind

/-- Modelled from the spec: `ComputeInputToOutputIndexing` (declared only in
tile_analysis.h) — the reverse-direction dispatch. -/
def ComputeInputToOutputIndexing (op : HloOp) (input_id : Nat) :
    Except IndexingError HloInstructionIndexing :=
  match op with
  | .elementwise shape n =>
    if input_id < n then .ok (.FromIndexingMaps [identityIndexingMap shape])
    else .error .invalidOperandOrOutputId
  | .broadcast i o dims =>
    if input_id = 0 then
      .ok (.FromIndexingMaps [ComputeBroadcastInputToOutputIndexing i o dims])
    else .error .invalidOperandOrOutputId
  | .reduce inShape dims =>
    if input_id < 2 then
      .ok (.FromIndexingMaps [ComputeReduceInputToOutputIndexing inShape dims])
    else .error .invalidOperandOrOutputId
  | .reverse shape dims =>
    if input_id = 0 then .ok (.FromIndexingMaps [ComputeReverseIndexingMap shape dims])
    else .error .invalidOperandOrOutputId
  | .transpose inShape perm =>
    if input_id = 0 then
      .ok (.FromIndexingMaps
        [{ affine_map := ComputeTransposeIndexingMap (inversePerm perm)
           domain := Domain.FromUpperBounds inShape [] }])
    else .error .invalidOperandOrOutputId
  | .reshape i o =>
    if input_id = 0 then
      (if canFactor i o then .ok (.FromIndexingMaps [ComputeReshapeOutputToInputIndexing o i])
       else .error .nonFactoringReshape)
    else .error .invalidOperandOrOutputId
  | .slice inShape starts strides _ =>
    if input_id = 0 then
      .ok (.FromIndexingMaps [ComputeSliceInputToOutputIndexing inShape starts strides])
    else .error .invalidOperandOrOutputId
  | .pad inShape low _ interior =>
    if input_id < 2 then
      (if interior.any fun x => decide (0 < x) then .error .interiorPadding
       else .ok (.FromIndexingMaps [ComputePadInputToOutputIndexing inShape low]))
    else .error .invalidOperandOrOutputId
  | .dynamicSlice _ => .error .dataDependentIndices
  | .gather _ => .error .dataDependentIndices
  | .unknownOp => .error .unknownOpKind

/-- The error component of an `Except` result. -/
def exceptError {ε α : Type} : Except ε α → Option ε
  | .error e => some e
  | .ok _ => none

/-- The documented failure condition of output→input derivation: invalid
output id, non-factoring reshape, interior padding, data-dependent indices,
or unknown operation kind. -/
def outputToInputFailure (op : HloOp) (output_id : Nat) : Option IndexingError :=
  if output_id ≠ 0 then some .invalidOperandOrOutputId
  else
    match op with
    | .reshape i o => if canFactor i o then none else some .nonFactoringReshape
    | .pad _ _ _ interior =>
      if interior.any fun x => decide (0 < x) then some .interiorPadding else none
    | .dynamicSlice _ => some .dataDependentIndices
    | .gather _ => some .dataDependentIndices
    | .unknownOp => some .unknownOpKind
    | _ => none

/-- The documented failure condition of input→output derivation. -/
def inputToOutputFailure (op : HloOp) (input_id : Nat) : Option IndexingError :=
  match op with
  | .elementwise _ n =>
    if input_id < n then none else some .invalidOperandOrOutputId
  | .reduce _ _ => if input_id < 2 then none else some .invalidOperandOrOutputId
  | .reshape i o =>
    if input_id = 0 then
      (if canFactor i o then none else some .nonFactoringReshape)
    else some .invalidOperandOrOutputId
  | .pad _ _ _ interior =>
    if input_id < 2 then
      (if interior.any fun x => decide (0 < x) then some .interiorPadding else none)
    else some .invalidOperandOrOutputId
  | .dynamicSlice _ => some .dataDependentIndices
  | .gather _ => some .dataDependentIndices
  | .unknownOp => some .unknownOpKind
  | _ => if input_id = 0 then none else some .invalidOperandOrOutputId

/-- A strided expression `offset + stride * size`: the offset and stride are
affine expressions over the tile's stride/offset parameters (dimensions),
and the size is an optional size-symbol index. -/
structure StridedExpr where
  offset : AffineExpr
  stride : AffineExpr
  sizeSym : Option Nat
deriving DecidableEq, Repr

/-- Modelled from the spec: a symbolic tile for an `N`-axis array — an
affine map with `2N` dimensions (`stride_i`, `offset_i` pairs) and size
symbols whose results are strided expressions, plus the optional concrete
size, maximum size, and maximum stride/offset bounds
(`SymbolicTile` of tile_analysis.h, whose implementation is absent from the
repository excerpt). -/
structure SymbolicTile where
  num_dims : Nat
  results : List StridedExpr
  sizes : List (Option Int)
  max_sizes : List Int
  max_strides_and_offsets : List Int
deriving DecidableEq, Repr

/-- Modelled from the spec: the identity tile of a target shape — result `i`
is `offset_i + stride_i * size_i`, all sizes unset, `max_sizes[i]` the axis
size, strides and offsets bounded by the axis size. -/
def SymbolicTile.fromShape (target_shape : List Int) : SymbolicTile :=
  let n := target_shape.length
  { num_dims := 2 * n
    results := (List.range n).map fun i => ⟨.dim (2 * i + 1), .dim (2 * i), some i⟩
    sizes := List.replicate n none
    max_sizes := target_shape
    max_strides_and_offsets := (target_shape.map fun s => [s, s]).flatten }

/-- An expression that is affine in the tile parameters and linear in the
size symbols: a base plus one stride coefficient per occurring size symbol. -/
structure TileLinear where
  base : AffineExpr
  coeffs : List (Nat × AffineExpr)
deriving DecidableEq, Repr

/-- Addition with constant folding. -/
def addFold : AffineExpr → AffineExpr → AffineExpr
  | .const a, .const b => .const (a + b)
  | a, b => .add a b

/-- Multiplication by a constant with folding. -/
def mulFold : AffineExpr → Int → AffineExpr
  | .const a, c => .const (a * c)
  | a, c => if c = 1 then a else .mul a c

/-- Merge two size-coefficient lists sorted by symbol index, adding the
stride coefficients of equal symbols. -/
def mergeCoeffs : List (Nat × AffineExpr) → List (Nat × AffineExpr) →
    List (Nat × AffineExpr)
  | [], ys => ys
  | x :: xs, [] => x :: xs
  | (i, a) :: xs, (j, b) :: ys =>
    if i = j then (i, addFold a b) :: mergeCoeffs xs ys
    else if i < j then (i, a) :: mergeCoeffs xs ((j, b) :: ys)
    else (j, b) :: mergeCoeffs ((i, a) :: xs) ys
termination_by xs ys => xs.length + ys.length

/-- Substitute the tile's strided results for the dimension references of an
indexing-map expression (the map's own symbols become new leading size
symbols, the tile's size symbols are shifted up by `mSyms`), keeping the
result linear in the size symbols. Fails on `floordiv`/`mod` of anything but
a constant — the expression then cannot re-factor into strided form. -/
def substTileExpr (t : SymbolicTile) (mSyms : Nat) : AffineExpr → Option TileLinear
  | .const c => some ⟨.const c, []⟩
  | .dim j =>
    match t.results.get? j with
    | some r =>
      some ⟨r.offset,
        match r.sizeSym with
        | some k => [(mSyms + k, r.stride)]
        | none => []⟩
    | none => none
  | .sym s => some ⟨.const 0, [(s, .const 1)]⟩
  | .add a b => do
    let x ← substTileExpr t mSyms a
    let y ← substTileExpr t mSyms b
    pure ⟨addFold x.base y.base, mergeCoeffs x.coeffs y.coeffs⟩
  | .mul a c =>
    (substTileExpr t mSyms a).map fun x =>
      ⟨mulFold x.base c, if c = 0 then [] else x.coeffs.map fun p => (p.1, mulFold p.2 c)⟩
  | .floordiv a k =>
    (substTileExpr t mSyms a).bind fun x =>
      match x.coeffs, x.base.constVal? with
      | [], some b => some ⟨.const (b / k), []⟩
      | _, _ => none
  | .mod a k =>
    (substTileExpr t mSyms a).bind fun x =>
      match x.coeffs, x.base.constVal? with
      | [], some b => some ⟨.const (b % k), []⟩
      | _, _ => none

/-- The re-expressibility check: a linear form factors into strided form
`offset + stride * size` exactly when at most one size symbol occurs; an
expression mixing two independent size parameters additively fails. -/
def TileLinear.factor : TileLinear → Option StridedExpr
  | ⟨base, []⟩ => some ⟨base, .const 0, none⟩
  | ⟨base, [(k, s)]⟩ => some ⟨base, s, some k⟩
  | _ => none

/-- Substitute and re-factor every result of the composed map; fails if any
single result fails. -/
def factorResults (t : SymbolicTile) (mSyms : Nat) :
    List AffineExpr → Option (List StridedExpr)
  | [] => some []
  | e :: es =>
    match (substTileExpr t mSyms e).bind TileLinear.factor, factorResults t mSyms es with
    | some r, some rs => some (r :: rs)
    | _, _ => none

/-- Modelled from the spec: `SymbolicTile::TryPropagateTileThroughIndexingMap`
(declared only in tile_analysis.h) — composes the indexing map's affine map
with the tile's affine map and requires every resulting expression to
re-factor into strided form. On success the new symbols introduced by the
indexing map precede the tile's pre-existing symbols, with size and max size
taken from the indexing map's domain bounds; on failure the result is
empty. -/
def SymbolicTile.TryPropagateTileThroughIndexingMap (t : SymbolicTile)
    (m : IndexingMap) : Option SymbolicTile :=
  (factorResults t m.affine_map.numSymbols m.affine_map.results).map fun rs =>
    { num_dims := t.num_dims
      results := rs
      sizes := (m.domain.symbol_ranges.map fun r => some r.upper_bound) ++ t.sizes
      max_sizes := (m.domain.symbol_ranges.map fun r => r.upper_bound) ++ t.max_sizes
      max_strides_and_offsets := t.max_strides_and_offsets }

/-- A deterministic hash combiner over machine-word-sized naturals. -/
def hashCombine (h x : Nat) : Nat := (h * 1000003 + x + 486187739) % 2 ^ 64

/-- An injective encoding of integers into naturals used for hashing. -/
def intHash (i : Int) : Nat := if 0 ≤ i then 2 * i.toNat else 2 * (-i).toNat + 1

/-- Mirrors `AbslHashValue` for `Range`: combine both bounds. -/
def Range.hashv (r : Range) : Nat :=
  hashCombine (intHash r.lower_bound) (intHash r.upper_bound)

/-- Fold a hash over a list. -/
def hashList {α : Type} (f : α → Nat) (l : List α) : Nat :=
  l.foldl (fun h x => hashCombine h (f x)) 17

/-- Mirrors `AbslHashValue` for `Domain`: combine the dimension ranges with
the symbol ranges. -/
def Domain.hashv (d : Domain) : Nat :=
  hashCombine (hashList Range.hashv d.dimension_ranges)
    (hashList Range.hashv d.symbol_ranges)

/-- The structural hash of an affine map (standing for
`llvm::hash_combine(affine_map)`). -/
def AffineMap.hashv (am : AffineMap) : Nat :=
  hashCombine (hashCombine am.numDims am.numSymbols)
    (hashList AffineExpr.encodeN am.results)

/-- Mirrors `AbslHashValue` for `IndexingMap`: combine the affine map's hash
with the domain's hash. -/
def IndexingMap.hashv (m : IndexingMap) : Nat :=
  hashCombine m.affine_map.hashv m.domain.hashv

/-- Modelled from the spec: `operator==` on `IndexingMap` (declared only in
tile_analysis.h) — structural equality of the affine map and the domain. -/
def IndexingMap.beqv (a b : IndexingMap) : Bool :=
  decide (a.affine_map = b.affine_map) && decide (a.domain = b.domain)

/-- The output→input map for the reverse example exactly as documented in
the header comment of tile_analysis.h (lines 90–96):
`(d0, d1, d2, d3) -> (d0, -d1 + 17, -d2 + 9, d3)` with `d0 in [0, 1)`,
`d1 in [0, 17)`, `d2 in [0, 9)` and `d3 in [0, 9)`. -/
def headerReverseExampleMap : IndexingMap :=
  { affine_map :=
      { numDims := 4
        numSymbols := 0
        results := [.dim 0, .add (.mul (.dim 1) (-1)) (.const 17),
          .add (.mul (.dim 2) (-1)) (.const 9), .dim 3] }
    domain := Domain.FromUpperBounds [1, 17, 9, 9] [] }

/-- A concrete indexing map with a collapsible symbol, used to witness
simplification. -/
def mapC3 : IndexingMap :=
  { affine_map := { numDims := 1, numSymbols := 1, results := [.add (.dim 0) (.sym 0)] }
    domain := { dimension_ranges := [⟨0, 10⟩], symbol_ranges := [⟨5, 6⟩] } }

/-- A concrete one-axis tile used to witness propagation. -/
def tileC2 : SymbolicTile := SymbolicTile.fromShape [4]

/-- A concrete identity indexing map used to witness propagation. -/
def mapC2 : IndexingMap := identityIndexingMap [4]

/-- The tile produced by propagating `tileC2` through `mapC2`. -/
def tileC2' : SymbolicTile :=
  { num_dims := 2
    results := [⟨.dim 1, .dim 0, some 0⟩]
    sizes := [none]
    max_sizes := [4]
    max_strides_and_offsets := [4, 4] }

/-- A concrete one-axis tile used to witness symbol ordering. -/
def tileC7 : SymbolicTile := SymbolicTile.fromShape [8]

/-- A reduce-shaped indexing map with one symbol, used to witness symbol
ordering. -/
def mapC7 : IndexingMap :=
  { affine_map := { numDims := 1, numSymbols := 1, results := [.dim 0, .sym 0] }
    domain := { dimension_ranges := [⟨0, 8⟩], symbol_ranges := [⟨0, 5⟩] } }

/-- The tile produced by propagating `tileC7` through `mapC7`. -/
def tileC7' : SymbolicTile :=
  { num_dims := 2
    results := [⟨.dim 1, .dim 0, some 1⟩, ⟨.const 0, .const 1, some 0⟩]
    sizes := [some 5, none]
    max_sizes := [5, 8]
    max_strides_and_offsets := [8, 8] }

/-- A second rendering of the same semantic map as `identityIndexingMap [4]`,
used to witness hash congruence. -/
def mapC10 : IndexingMap :=
  { affine_map := { numDims := 1, numSymbols := 0, results := [.dim 0] }
    domain := { dimension_ranges := [⟨0, 4⟩], symbol_ranges := [] } }

/-- C6 witness: the pointwise characterization applied to the round-trip
instance. -/

lemma valuesInRanges_length {rs : List Range} {xs : List Int}
    (h : valuesInRanges rs xs = true) : xs.length = rs.length := by
  induction rs generalizing xs with
  | nil => cases xs with
    | nil => rfl
    | cons x xs => simp [valuesInRanges] at h
  | cons r rs ih =>
    cases xs with
    | nil => simp [valuesInRanges] at h
    | cons x xs =>
      simp only [valuesInRanges, Bool.and_eq_true] at h
      simp [ih h.2]

lemma valuesInRanges_getD {rs : List Range} {xs : List Int}
    (h : valuesInRanges rs xs = true) {i : Nat} (hi : i < rs.length) :
    (rs.getD i ⟨0, 0⟩).contains (xs.getD i 0) := by
  induction rs generalizing xs i with
  | nil => exact absurd hi (by simp)
  | cons r rs ih =>
    cases xs with
    | nil => simp [valuesInRanges] at h
    | cons x xs =>
      simp only [valuesInRanges, Bool.and_eq_true, decide_eq_true_eq] at h
      cases i with
      | zero => exact h.1
      | succ i => exact ih h.2 (by simpa using hi)

/-- Soundness of bound inference: for a well-formed expression and an
assignment inside the domain ranges, the expression's value lies in the
inferred interval. -/
lemma inferBounds_sound {dims syms : List Range} {ds ss : List Int}
    (hd : valuesInRanges dims ds = true) (hs : valuesInRanges syms ss = true)
    {e : AffineExpr} (hw : e.wfB dims.length syms.length = true) :
    (inferBounds dims syms e).min ≤ e.eval ds ss ∧
      e.eval ds ss ≤ (inferBounds dims syms e).max := by
  induction e with
  | const c => simp [inferBounds, AffineExpr.eval]
  | dim i =>
    simp only [AffineExpr.wfB, decide_eq_true_eq] at hw
    have := valuesInRanges_getD hd hw
    simp only [Range.contains] at this
    simp only [inferBounds, AffineExpr.eval, Range.toInterval]
    omega
  | sym j =>
    simp only [AffineExpr.wfB, decide_eq_true_eq] at hw
    have := valuesInRanges_getD hs hw
    simp only [Range.contains] at this
    simp only [inferBounds, AffineExpr.eval, Range.toInterval]
    omega
  | add a b iha ihb =>
    simp only [AffineExpr.wfB, Bool.and_eq_true] at hw
    have ha := iha hw.1
    have hb := ihb hw.2
    simp only [inferBounds, AffineExpr.eval]
    constructor <;> [exact add_le_add ha.1 hb.1; exact add_le_add ha.2 hb.2]
  | mul a c iha =>
    simp only [AffineExpr.wfB] at hw
    have ha := iha hw
    simp only [inferBounds, AffineExpr.eval]
    by_cases hc : 0 ≤ c
    · simp only [if_pos hc]
      exact ⟨mul_le_mul_of_nonneg_right ha.1 hc, mul_le_mul_of_nonneg_right ha.2 hc⟩
    · simp only [if_neg hc]
      push_neg at hc
      exact ⟨mul_le_mul_of_nonpos_right ha.2 (le_of_lt hc),
        mul_le_mul_of_nonpos_right ha.1 (le_of_lt hc)⟩
  | floordiv a c iha =>
    simp only [AffineExpr.wfB, Bool.and_eq_true, decide_eq_true_eq] at hw
    have ha := iha hw.1
    simp only [inferBounds, AffineExpr.eval]
    exact ⟨Int.ediv_le_ediv hw.2 ha.1, Int.ediv_le_ediv hw.2 ha.2⟩
  | mod a c iha =>
    simp only [AffineExpr.wfB, Bool.and_eq_true, decide_eq_true_eq] at hw
    simp only [inferBounds, AffineExpr.eval]
    have h1 := Int.emod_nonneg (a.eval ds ss) (by omega : c ≠ 0)
    have h2 := Int.emod_lt_of_pos (a.eval ds ss) hw.2
    omega

/-- Monotonicity of bound inference: tighter domain ranges never produce a
looser inferred interval. -/
lemma inferBounds_mono {dims' dims syms' syms : List Range}
    (hd : TighterRanges dims' dims) (hs : TighterRanges syms' syms)
    {e : AffineExpr} {D S : Nat} (hw : e.wfB D S = true) :
    (inferBounds dims' syms' e).subset (inferBounds dims syms e) := by
  induction e with
  | const c => simp [inferBounds, Interval.subset]
  | dim i =>
    have := hd i
    simp only [Range.subset] at this
    simp only [inferBounds, Interval.subset, Range.toInterval]
    omega
  | sym j =>
    have := hs j
    simp only [Range.subset] at this
    simp only [inferBounds, Interval.subset, Range.toInterval]
    omega
  | add a b iha ihb =>
    simp only [AffineExpr.wfB, Bool.and_eq_true] at hw
    have ha := iha hw.1
    have hb := ihb hw.2
    simp only [inferBounds, Interval.subset] at *
    omega
  | mul a c iha =>
    simp only [AffineExpr.wfB] at hw
    have ha := iha hw
    simp only [inferBounds, Interval.subset] at *
    by_cases hc : 0 ≤ c
    · simp only [if_pos hc]
      exact ⟨mul_le_mul_of_nonneg_right ha.1 hc, mul_le_mul_of_nonneg_right ha.2 hc⟩
    · simp only [if_neg hc]
      push_neg at hc
      exact ⟨mul_le_mul_of_nonpos_right ha.2 (le_of_lt hc),
        mul_le_mul_of_nonpos_right ha.1 (le_of_lt hc)⟩
  | floordiv a c iha =>
    simp only [AffineExpr.wfB, Bool.and_eq_true, decide_eq_true_eq] at hw
    have ha := iha hw.1
    simp only [inferBounds, Interval.subset] at *
    exact ⟨Int.ediv_le_ediv hw.2 ha.1, Int.ediv_le_ediv hw.2 ha.2⟩
  | mod a c iha =>
    simp [inferBounds, Interval.subset]

lemma AffineExpr.encodeN_inj : ∀ (a b : AffineExpr), a.encodeN = b.encodeN → a = b := by
  intro a
  induction a with
  | const c =>
    intro b h
    cases b <;> simp_all [encodeN, Nat.pair_eq_pair, Encodable.encode_inj]
  | dim i =>
    intro b h
    cases b <;> simp_all [encodeN, Nat.pair_eq_pair]
  | sym j =>
    intro b h
    cases b <;> simp_all [encodeN, Nat.pair_eq_pair]
  | add a b iha ihb =>
    intro b' h
    cases b' <;> simp [encodeN, Nat.pair_eq_pair] at h ⊢
    exact ⟨iha _ h.1, ihb _ h.2⟩
  | mul a c iha =>
    intro b' h
    cases b' <;> simp [encodeN, Nat.pair_eq_pair, Encodable.encode_inj] at h ⊢
    exact ⟨iha _ h.1, h.2⟩
  | floordiv a c iha =>
    intro b' h
    cases b' <;> simp [encodeN, Nat.pair_eq_pair, Encodable.encode_inj] at h ⊢
    exact ⟨iha _ h.1, h.2⟩
  | mod a c iha =>
    intro b' h
    cases b' <;> simp [encodeN, Nat.pair_eq_pair, Encodable.encode_inj] at h ⊢
    exact ⟨iha _ h.1, h.2⟩

lemma mergeTerms_cons_cons (a : AffineExpr) (ka : Int) (xs : Terms)
    (b : AffineExpr) (kb : Int) (ys : Terms) :
    mergeTerms ((a, ka) :: xs) ((b, kb) :: ys) =
      if a = b then
        (if ka + kb = 0 then mergeTerms xs ys else (a, ka + kb) :: mergeTerms xs ys)
      else if a.encodeN < b.encodeN then
        (a, ka) :: mergeTerms xs ((b, kb) :: ys)
      else
        (b, kb) :: mergeTerms ((a, ka) :: xs) ys := by
  rw [mergeTerms]

lemma mergeTerms_atoms (xs ys : Terms) :
    ∀ z ∈ mergeTerms xs ys, z.1 ∈ xs.map Prod.fst ∨ z.1 ∈ ys.map Prod.fst := by
  induction xs, ys using mergeTerms.induct with
  | case1 ys =>
    intro z hz
    right; exact List.mem_map_of_mem _ (by simpa [mergeTerms] using hz)
  | case2 x xs =>
    intro z hz
    left; exact List.mem_map_of_mem _ (by simpa [mergeTerms] using hz)
  | case3 ka xs b kb ys hk ih =>
    intro z hz
    rw [mergeTerms_cons_cons, if_pos rfl, if_pos hk] at hz
    rcases ih z hz with h | h
    · exact Or.inl (by simp only [List.map_cons, List.mem_cons]; exact Or.inr h)
    · exact Or.inr (by simp only [List.map_cons, List.mem_cons]; exact Or.inr h)
  | case4 ka xs b kb ys hk ih =>
    intro z hz
    rw [mergeTerms_cons_cons, if_pos rfl, if_neg hk] at hz
    rcases List.mem_cons.mp hz with h | h
    · subst h; left; simp
    · rcases ih z h with h | h
      · exact Or.inl (by simp only [List.map_cons, List.mem_cons]; exact Or.inr h)
      · exact Or.inr (by simp only [List.map_cons, List.mem_cons]; exact Or.inr h)
  | case5 a ka xs b kb ys hab hlt ih =>
    intro z hz
    rw [mergeTerms_cons_cons, if_neg hab, if_pos hlt] at hz
    rcases List.mem_cons.mp hz with h | h
    · subst h; left; simp
    · rcases ih z h with h | h
      · exact Or.inl (by simp only [List.map_cons, List.mem_cons]; exact Or.inr h)
      · exact Or.inr h
  | case6 a ka xs b kb ys hab hlt ih =>
    intro z hz
    rw [mergeTerms_cons_cons, if_neg hab, if_neg hlt] at hz
    rcases List.mem_cons.mp hz with h | h
    · subst h; right; simp
    · rcases ih z h with h | h
      · exact Or.inl h
      · exact Or.inr (by simp only [List.map_cons, List.mem_cons]; exact Or.inr h)

lemma mergeTerms_sorted {xs ys : Terms} (hx : SortedTerms xs) (hy : SortedTerms ys) :
    SortedTerms (mergeTerms xs ys) := by
  induction xs, ys using mergeTerms.induct with
  | case1 ys => simpa [mergeTerms] using hy
  | case2 x xs => simpa [mergeTerms] using hx
  | case3 ka xs b kb ys hk ih =>
    rw [SortedTerms] at hx hy
    rw [SortedTerms, mergeTerms_cons_cons, if_pos rfl, if_pos hk]
    exact ih (List.Pairwise.of_cons hx) (List.Pairwise.of_cons hy)
  | case4 ka xs b kb ys hk ih =>
    rw [SortedTerms] at hx hy
    rw [SortedTerms, mergeTerms_cons_cons, if_pos rfl, if_neg hk]
    refine List.Pairwise.cons ?_ (ih (List.Pairwise.of_cons hx) (List.Pairwise.of_cons hy))
    intro z hz
    rcases mergeTerms_atoms _ _ z hz with h | h
    · rcases List.mem_map.mp h with ⟨w, hw, hwe⟩
      have := (List.pairwise_cons.mp hx).1 w hw
      simpa [hwe] using this
    · rcases List.mem_map.mp h with ⟨w, hw, hwe⟩
      have := (List.pairwise_cons.mp hy).1 w hw
      simpa [hwe] using this
  | case5 a ka xs b kb ys hab hlt ih =>
    rw [SortedTerms] at hx hy
    rw [SortedTerms, mergeTerms_cons_cons, if_neg hab, if_pos hlt]
    refine List.Pairwise.cons ?_ (ih (List.Pairwise.of_cons hx) hy)
    intro z hz
    rcases mergeTerms_atoms _ _ z hz with h | h
    · rcases List.mem_map.mp h with ⟨w, hw, hwe⟩
      have := (List.pairwise_cons.mp hx).1 w hw
      simpa [hwe] using this
    · rcases List.mem_map.mp h with ⟨w, hw, hwe⟩
      rcases List.mem_cons.mp hw with h' | h'
      · subst h'; simpa [← hwe] using hlt
      · have := (List.pairwise_cons.mp hy).1 w h'
        have hbz : b.encodeN < z.1.encodeN := by simpa [hwe] using this
        exact lt_trans hlt hbz
  | case6 a ka xs b kb ys hab hlt ih =>
    rw [SortedTerms] at hx hy
    rw [SortedTerms, mergeTerms_cons_cons, if_neg hab, if_neg hlt]
    have hba : b.encodeN < a.encodeN := by
      rcases Nat.lt_trichotomy a.encodeN b.encodeN with h | h | h
      · exact absurd h hlt
      · exact absurd (AffineExpr.encodeN_inj _ _ h) hab
      · exact h
    refine List.Pairwise.cons ?_ (ih hx (List.Pairwise.of_cons hy))
    intro z hz
    rcases mergeTerms_atoms _ _ z hz with h | h
    · rcases List.mem_map.mp h with ⟨w, hw, hwe⟩
      rcases List.mem_cons.mp hw with h' | h'
      · subst h'; simpa [← hwe] using hba
      · have := (List.pairwise_cons.mp hx).1 w h'
        have haz : a.encodeN < z.1.encodeN := by simpa [hwe] using this
        exact lt_trans hba haz
    · rcases List.mem_map.mp h with ⟨w, hw, hwe⟩
      have := (List.pairwise_cons.mp hy).1 w hw
      simpa [hwe] using this

lemma mergeTerms_nonzero {xs ys : Terms} (hx : ∀ z ∈ xs, z.2 ≠ 0)
    (hy : ∀ z ∈ ys, z.2 ≠ 0) : ∀ z ∈ mergeTerms xs ys, z.2 ≠ 0 := by
  induction xs, ys using mergeTerms.induct with
  | case1 ys => simpa [mergeTerms] using hy
  | case2 x xs => simpa [mergeTerms] using hx
  | case3 ka xs b kb ys hk ih =>
    rw [mergeTerms_cons_cons, if_pos rfl, if_pos hk]
    exact ih (fun z hz => hx z (List.mem_cons_of_mem _ hz))
      (fun z hz => hy z (List.mem_cons_of_mem _ hz))
  | case4 ka xs b kb ys hk ih =>
    rw [mergeTerms_cons_cons, if_pos rfl, if_neg hk]
    intro z hz
    rcases List.mem_cons.mp hz with h | h
    · subst h; exact hk
    · exact ih (fun z hz => hx z (List.mem_cons_of_mem _ hz))
        (fun z hz => hy z (List.mem_cons_of_mem _ hz)) z h
  | case5 a ka xs b kb ys hab hlt ih =>
    rw [mergeTerms_cons_cons, if_neg hab, if_pos hlt]
    intro z hz
    rcases List.mem_cons.mp hz with h | h
    · subst h; exact hx _ (List.mem_cons_self _ _)
    · exact ih (fun z hz => hx z (List.mem_cons_of_mem _ hz)) hy z h
  | case6 a ka xs b kb ys hab hlt ih =>
    rw [mergeTerms_cons_cons, if_neg hab, if_neg hlt]
    intro z hz
    rcases List.mem_cons.mp hz with h | h
    · subst h; exact hy _ (List.mem_cons_self _ _)
    · exact ih hx (fun z hz => hy z (List.mem_cons_of_mem _ hz)) z h

lemma evalTerms_mergeTerms (ds ss : List Int) (xs ys : Terms) :
    evalTerms ds ss (mergeTerms xs ys) = evalTerms ds ss xs + evalTerms ds ss ys := by
  induction xs, ys using mergeTerms.induct with
  | case1 ys => simp [mergeTerms, evalTerms]
  | case2 x xs => simp [mergeTerms, evalTerms]
  | case3 ka xs b kb ys hk ih =>
    rw [mergeTerms_cons_cons, if_pos rfl, if_pos hk, ih]
    simp only [evalTerms]
    have : ka = -kb := by omega
    subst this; ring
  | case4 ka xs b kb ys hk ih =>
    rw [mergeTerms_cons_cons, if_pos rfl, if_neg hk]
    simp only [evalTerms, ih]
    ring
  | case5 a ka xs b kb ys hab hlt ih =>
    rw [mergeTerms_cons_cons, if_neg hab, if_pos hlt]
    simp only [evalTerms, ih]
    ring
  | case6 a ka xs b kb ys hab hlt ih =>
    rw [mergeTerms_cons_cons, if_neg hab, if_neg hlt]
    simp only [evalTerms, ih]
    ring

lemma evalTerms_scaleTerms (ds ss : List Int) (ts : Terms) (c : Int) :
    evalTerms ds ss (scaleTerms ts c) = evalTerms ds ss ts * c := by
  induction ts with
  | nil => simp [scaleTerms, evalTerms]
  | cons t ts ih =>
    obtain ⟨a, k⟩ := t
    simp only [scaleTerms, List.map_cons, evalTerms] at *
    rw [ih]
    ring

lemma NFInv_nil (dims syms : List Range) (c : Int) : NFInv dims syms ([], c) :=
  ⟨by simp [SortedTerms], by simp, by simp⟩

lemma NFInv_single (dims syms : List Range) (a : AffineExpr) (c : Int)
    (hself : SelfNorm dims syms a) : NFInv dims syms ([(a, 1)], c) :=
  ⟨by simp [SortedTerms], by simp, by simpa⟩

lemma eval_denoteTerm (ds ss : List Int) (t : AffineExpr × Int) :
    (denoteTerm t).eval ds ss = t.2 * t.1.eval ds ss := by
  obtain ⟨a, k⟩ := t
  by_cases hk : k = 1 <;> simp [denoteTerm, hk, AffineExpr.eval, mul_comm]

lemma eval_denoteNF (ds ss : List Int) :
    ∀ (ts : Terms) (c : Int), (denoteNF ts c).eval ds ss = evalTerms ds ss ts + c := by
  intro ts
  induction ts with
  | nil => intro c; simp [denoteNF, evalTerms, AffineExpr.eval]
  | cons t ts ih =>
    intro c
    cases ts with
    | nil =>
      by_cases hc : c = 0 <;>
        simp [denoteNF, hc, evalTerms, AffineExpr.eval, eval_denoteTerm]
    | cons t' ts' =>
      simp [denoteNF, AffineExpr.eval, eval_denoteTerm, ih c, evalTerms]
      ring

lemma normalize_denoteTerm (dims syms : List Range) (a : AffineExpr) (k : Int)
    (hself : SelfNorm dims syms a) (hk : k ≠ 0) :
    normalize dims syms (denoteTerm (a, k)) = ([(a, k)], 0) := by
  have hself' : normalize dims syms a = ([(a, 1)], 0) := hself
  by_cases h1 : k = 1
  · subst h1; simpa [denoteTerm] using hself
  · simp [denoteTerm, if_neg h1, normalize, hk, hself', scaleTerms]

lemma normalize_denoteNF (dims syms : List Range) :
    ∀ (ts : Terms) (c : Int), NFInv dims syms (ts, c) →
      normalize dims syms (denoteNF ts c) = (ts, c) := by
  intro ts
  induction ts with
  | nil => intro c _; simp [denoteNF, normalize]
  | cons t ts ih =>
    intro c hinv
    obtain ⟨a, k⟩ := t
    have hself : SelfNorm dims syms a := hinv.selfnorm _ (List.mem_cons_self _ _)
    have hknz : k ≠ 0 := hinv.nonzero _ (List.mem_cons_self _ _)
    cases ts with
    | nil =>
      by_cases hc : c = 0
      · subst hc
        simpa [denoteNF] using normalize_denoteTerm dims syms a k hself hknz
      · rw [show denoteNF [(a, k)] c =
            AffineExpr.add (denoteTerm (a, k)) (.const c) by simp [denoteNF, hc]]
        simp [normalize, normalize_denoteTerm dims syms a k hself hknz, mergeTerms]
    | cons t' ts' =>
      have hinv' : NFInv dims syms (t' :: ts', c) :=
        ⟨List.Pairwise.of_cons hinv.sorted,
         fun z hz => hinv.nonzero z (List.mem_cons_of_mem _ hz),
         fun z hz => hinv.selfnorm z (List.mem_cons_of_mem _ hz)⟩
      obtain ⟨b, kb⟩ := t'
      have hrel : a.encodeN < b.encodeN :=
        (List.pairwise_cons.mp hinv.sorted).1 _ (List.mem_cons_self _ _)
      have hne : a ≠ b := fun h => by subst h; exact lt_irrefl _ hrel
      rw [show denoteNF ((a, k) :: (b, kb) :: ts') c =
            AffineExpr.add (denoteTerm (a, k)) (denoteNF ((b, kb) :: ts') c) from rfl]
      simp only [normalize, normalize_denoteTerm dims syms a k hself hknz, ih c hinv']
      rw [mergeTerms_cons_cons, if_neg hne, if_pos hrel]
      simp [mergeTerms]

/-- Canonicalization establishes the normal-form invariant. -/
lemma normalize_inv (dims syms : List Range) :
    ∀ e : AffineExpr, NFInv dims syms (normalize dims syms e) := by
  intro e
  induction e with
  | const c => exact NFInv_nil dims syms c
  | dim i => exact NFInv_single dims syms _ 0 rfl
  | sym j => exact NFInv_single dims syms _ 0 rfl
  | add a b iha ihb =>
    refine ⟨?_, ?_, ?_⟩
    · exact mergeTerms_sorted iha.sorted ihb.sorted
    · exact mergeTerms_nonzero iha.nonzero ihb.nonzero
    · intro z hz
      rcases mergeTerms_atoms _ _ z hz with h | h
      · rcases List.mem_map.mp h with ⟨w, hw, hwe⟩
        rw [← hwe]; exact iha.selfnorm w hw
      · rcases List.mem_map.mp h with ⟨w, hw, hwe⟩
        rw [← hwe]; exact ihb.selfnorm w hw
  | mul a c iha =>
    by_cases hc : c = 0
    · simpa [normalize, hc] using NFInv_nil dims syms 0
    · simp only [normalize, if_neg hc]
      refine ⟨?_, ?_, ?_⟩
      · exact List.Pairwise.map _ (fun x y h => h) iha.sorted
      · intro z hz
        rcases List.mem_map.mp hz with ⟨w, hw, hwe⟩
        rw [← hwe]
        exact mul_ne_zero (iha.nonzero w hw) hc
      · intro z hz
        rcases List.mem_map.mp hz with ⟨w, hw, hwe⟩
        rw [← hwe]
        exact iha.selfnorm w hw
  | floordiv a k iha =>
    have hrt : normalize dims syms (denoteNF (normalize dims syms a).1
        (normalize dims syms a).2) = normalize dims syms a := by
      rw [normalize_denoteNF dims syms _ _ (by simpa using iha)]
    simp only [normalize]
    cases hcv : (denoteNF (normalize dims syms a).1 (normalize dims syms a).2).constVal? with
    | some c => exact NFInv_nil dims syms _
    | none =>
      cases hcol : collapses dims syms
          (denoteNF (normalize dims syms a).1 (normalize dims syms a).2) k with
      | true => simpa [hcol] using NFInv_nil dims syms 0
      | false =>
        simp only [hcol, Bool.false_eq_true, if_false]
        refine NFInv_single dims syms _ 0 ?_
        show normalize dims syms (.floordiv (denoteNF (normalize dims syms a).1
          (normalize dims syms a).2) k) = _
        simp only [normalize, hrt, hcv, hcol, Bool.false_eq_true, if_false]
  | mod a k iha =>
    have hrt : normalize dims syms (denoteNF (normalize dims syms a).1
        (normalize dims syms a).2) = normalize dims syms a := by
      rw [normalize_denoteNF dims syms _ _ (by simpa using iha)]
    simp only [normalize]
    cases hcv : (denoteNF (normalize dims syms a).1 (normalize dims syms a).2).constVal? with
    | some c => exact NFInv_nil dims syms _
    | none =>
      cases hcol : collapses dims syms
          (denoteNF (normalize dims syms a).1 (normalize dims syms a).2) k with
      | true => simpa [hcol] using iha
      | false =>
        simp only [hcol, Bool.false_eq_true, if_false]
        refine NFInv_single dims syms _ 0 ?_
        show normalize dims syms (.mod (denoteNF (normalize dims syms a).1
          (normalize dims syms a).2) k) = _
        simp only [normalize, hrt, hcv, hcol, Bool.false_eq_true, if_false]

/-- Re-canonicalizing a simplified expression computes the same normal form. -/
lemma normalize_simplifyExpr (dims syms : List Range) (e : AffineExpr) :
    normalize dims syms (simplifyExpr dims syms e) = normalize dims syms e := by
  rw [simplifyExpr, normalize_denoteNF dims syms _ _ (by simpa using normalize_inv dims syms e)]

/-- Idempotence of expression simplification. -/
lemma simplifyExpr_idem (dims syms : List Range) (e : AffineExpr) :
    simplifyExpr dims syms (simplifyExpr dims syms e) = simplifyExpr dims syms e := by
  rw [show simplifyExpr dims syms (simplifyExpr dims syms e) =
    denoteNF (normalize dims syms (simplifyExpr dims syms e)).1
      (normalize dims syms (simplifyExpr dims syms e)).2 from rfl]
  rw [normalize_simplifyExpr]
  rfl

lemma constVal?_some {e : AffineExpr} {c : Int} (h : e.constVal? = some c) :
    e = .const c := by
  cases e <;> simp [AffineExpr.constVal?] at h
  rw [h]

/-- Semantics preservation of canonicalization: for assignments inside the
domain ranges, the canonical sum evaluates to the original expression. -/
lemma evalTerms_normalize {dims syms : List Range} {ds ss : List Int}
    (hd : valuesInRanges dims ds = true) (hs : valuesInRanges syms ss = true) :
    ∀ e : AffineExpr,
      evalTerms ds ss (normalize dims syms e).1 + (normalize dims syms e).2 =
        e.eval ds ss := by
  intro e
  induction e with
  | const c => simp [normalize, evalTerms, AffineExpr.eval]
  | dim i => simp [normalize, evalTerms, AffineExpr.eval]
  | sym j => simp [normalize, evalTerms, AffineExpr.eval]
  | add a b iha ihb =>
    simp only [normalize, evalTerms_mergeTerms, AffineExpr.eval, ← iha, ← ihb]
    ring
  | mul a c iha =>
    by_cases hc : c = 0
    · simp [normalize, hc, evalTerms, AffineExpr.eval]
    · simp only [normalize, if_neg hc, evalTerms_scaleTerms, AffineExpr.eval, ← iha]
      ring
  | floordiv a k iha =>
    have hev : (denoteNF (normalize dims syms a).1 (normalize dims syms a).2).eval ds ss =
        a.eval ds ss := by rw [eval_denoteNF, iha]
    simp only [normalize]
    cases hcv : (denoteNF (normalize dims syms a).1 (normalize dims syms a).2).constVal? with
    | some c =>
      have := constVal?_some hcv
      rw [this] at hev
      simp only [AffineExpr.eval] at hev
      simp [evalTerms, AffineExpr.eval, ← hev]
    | none =>
      cases hcol : collapses dims syms
          (denoteNF (normalize dims syms a).1 (normalize dims syms a).2) k with
      | true =>
        simp only [collapses, Bool.and_eq_true, decide_eq_true_eq] at hcol
        have hsound := inferBounds_sound hd hs hcol.1.1
        rw [hev] at hsound
        have : a.eval ds ss / k = 0 :=
          Int.ediv_eq_zero_of_lt (by omega) (by omega)
        simp [evalTerms, AffineExpr.eval, this]
      | false =>
        simp only [hcol, Bool.false_eq_true, if_false]
        simp [evalTerms, AffineExpr.eval, hev]
  | mod a k iha =>
    have hev : (denoteNF (normalize dims syms a).1 (normalize dims syms a).2).eval ds ss =
        a.eval ds ss := by rw [eval_denoteNF, iha]
    simp only [normalize]
    cases hcv : (denoteNF (normalize dims syms a).1 (normalize dims syms a).2).constVal? with
    | some c =>
      have := constVal?_some hcv
      rw [this] at hev
      simp only [AffineExpr.eval] at hev
      simp [evalTerms, AffineExpr.eval, ← hev]
    | none =>
      cases hcol : collapses dims syms
          (denoteNF (normalize dims syms a).1 (normalize dims syms a).2) k with
      | true =>
        have hc := hcol
        simp only [collapses, Bool.and_eq_true, decide_eq_true_eq] at hc
        have hsound := inferBounds_sound hd hs hc.1.1
        rw [hev] at hsound
        have hm : a.eval ds ss % k = a.eval ds ss :=
          Int.emod_eq_of_lt (by omega) (by omega)
        simp [hcol, AffineExpr.eval, hm, iha]
      | false =>
        simp only [hcol, Bool.false_eq_true, if_false]
        simp [evalTerms, AffineExpr.eval, hev]

/-- Semantics preservation of expression simplification on the domain. -/
lemma simplifyExpr_eval {dims syms : List Range} {ds ss : List Int}
    (hd : valuesInRanges dims ds = true) (hs : valuesInRanges syms ss = true)
    (e : AffineExpr) :
    (simplifyExpr dims syms e).eval ds ss = e.eval ds ss := by
  rw [simplifyExpr, eval_denoteNF, evalTerms_normalize hd hs]

lemma keptRanges_no_singleton {rs : List Range} {r : Range} (h : r ∈ keptRanges rs) :
    r.isSingleton = false := by
  have := List.of_mem_filter h
  simpa using this

lemma keptRanges_idem (rs : List Range) : keptRanges (keptRanges rs) = keptRanges rs := by
  apply List.filter_eq_self.mpr
  intro r hr
  simp [keptRanges_no_singleton hr]

lemma collapseSubst_id {rs : List Range} (h : ∀ r ∈ rs, r.isSingleton = false) :
    ∀ j, collapseSubst rs j = .sym j := by
  induction rs with
  | nil => intro j; rfl
  | cons r rs ih =>
    intro j
    have hr : r.isSingleton = false := h r (List.mem_cons_self _ _)
    cases j with
    | zero => simp [collapseSubst, hr]
    | succ j =>
      simp only [collapseSubst, hr, Bool.false_eq_true, if_false]
      rw [ih (fun r hr => h r (List.mem_cons_of_mem _ hr)) j]

lemma substSyms_id {σ : Nat → AffineExpr} (h : ∀ j, σ j = .sym j) :
    ∀ e : AffineExpr, substSyms σ e = e := by
  intro e
  induction e <;> simp_all [substSyms]

lemma collapseSubst_shape (rs : List Range) (j : Nat) :
    (∃ k, collapseSubst rs j = .sym k) ∨ (∃ c, collapseSubst rs j = .const c) := by
  induction rs generalizing j with
  | nil => exact Or.inl ⟨j, rfl⟩
  | cons r rs ih =>
    cases j with
    | zero =>
      by_cases hr : r.isSingleton
      · exact Or.inr ⟨r.lower_bound, by simp [collapseSubst, hr]⟩
      · exact Or.inl ⟨0, by simp [collapseSubst, hr]⟩
    | succ j =>
      by_cases hr : r.isSingleton
      · simpa [collapseSubst, hr] using ih j
      · rcases ih j with ⟨k, hk⟩ | ⟨c, hc⟩
        · exact Or.inl ⟨k + 1, by simp [collapseSubst, hr, hk]⟩
        · exact Or.inr ⟨c, by simp [collapseSubst, hr, hc]⟩

lemma collapseSubst_eval {rs : List Range} {ss : List Int} (ds : List Int)
    (hin : valuesInRanges rs ss = true) :
    ∀ j, j < rs.length →
      (collapseSubst rs j).eval ds (filterKeptVals rs ss) = ss.getD j 0 := by
  induction rs generalizing ss with
  | nil => intro j hj; exact absurd hj (by simp)
  | cons r rs ih =>
    cases ss with
    | nil => simp [valuesInRanges] at hin
    | cons x xs =>
      simp only [valuesInRanges, Bool.and_eq_true, decide_eq_true_eq] at hin
      intro j hj
      cases j with
      | zero =>
        by_cases hr : r.isSingleton
        · have hs1 : r.upper_bound = r.lower_bound + 1 := by
            simpa [Range.isSingleton] using hr
          have hx : x = r.lower_bound := by
            have := hin.1
            simp only [Range.contains] at this
            omega
          simp [collapseSubst, hr, AffineExpr.eval, hx]
        · simp [collapseSubst, hr, AffineExpr.eval, filterKeptVals]
      | succ j =>
        have hj' : j < rs.length := by simpa using hj
        by_cases hr : r.isSingleton
        · simp only [collapseSubst, hr, if_true, filterKeptVals]
          exact ih hin.2 j hj'
        · simp only [collapseSubst, hr, Bool.false_eq_true, if_false, filterKeptVals]
          rcases collapseSubst_shape rs j with ⟨k, hk⟩ | ⟨c, hc⟩
          · have := ih hin.2 j hj'
            rw [hk] at this ⊢
            simpa [AffineExpr.eval] using this
          · have := ih hin.2 j hj'
            rw [hc] at this ⊢
            simpa [AffineExpr.eval] using this

lemma filterKeptVals_inRanges {rs : List Range} {ss : List Int}
    (hin : valuesInRanges rs ss = true) :
    valuesInRanges (keptRanges rs) (filterKeptVals rs ss) = true := by
  induction rs generalizing ss with
  | nil =>
    cases ss with
    | nil => rfl
    | cons x xs => simp [valuesInRanges] at hin
  | cons r rs ih =>
    cases ss with
    | nil => simp [valuesInRanges] at hin
    | cons x xs =>
      simp only [valuesInRanges, Bool.and_eq_true, decide_eq_true_eq] at hin
      by_cases hr : r.isSingleton
      · simpa [keptRanges, filterKeptVals, hr] using ih hin.2
      · have h1 : keptRanges (r :: rs) = r :: keptRanges rs := by
          simp [keptRanges, hr]
        have h2 : filterKeptVals (r :: rs) (x :: xs) = x :: filterKeptVals rs xs := by
          simp [filterKeptVals, hr]
        rw [h1, h2]
        simp [valuesInRanges, hin.1, ih hin.2]

lemma substSyms_eval {σ : Nat → AffineExpr} {D S : Nat} {ds ss ss' : List Int}
    (h : ∀ j, j < S → (σ j).eval ds ss' = ss.getD j 0) :
    ∀ {e : AffineExpr}, e.wfB D S = true →
      (substSyms σ e).eval ds ss' = e.eval ds ss := by
  intro e hw
  induction e with
  | const c => rfl
  | dim i => rfl
  | sym j =>
    simp only [AffineExpr.wfB, decide_eq_true_eq] at hw
    simpa [substSyms, AffineExpr.eval] using h j hw
  | add a b iha ihb =>
    simp only [AffineExpr.wfB, Bool.and_eq_true] at hw
    simp [substSyms, AffineExpr.eval, iha hw.1, ihb hw.2]
  | mul a c iha =>
    simp only [AffineExpr.wfB] at hw
    simp [substSyms, AffineExpr.eval, iha hw]
  | floordiv a c iha =>
    simp only [AffineExpr.wfB, Bool.and_eq_true] at hw
    simp [substSyms, AffineExpr.eval, iha hw.1]
  | mod a c iha =>
    simp only [AffineExpr.wfB, Bool.and_eq_true] at hw
    simp [substSyms, AffineExpr.eval, iha hw.1]

/-- A second simplification pass makes no further change. -/
lemma Simplify_idem (m : IndexingMap) :
    m.Simplify.1.Simplify = (m.Simplify.1, false) := by
  have hkept : ∀ r ∈ keptRanges m.domain.symbol_ranges, r.isSingleton = false :=
    fun r hr => keptRanges_no_singleton hr
  have hσ : ∀ j, collapseSubst (keptRanges m.domain.symbol_ranges) j = .sym j :=
    collapseSubst_id hkept
  have hm' : m.Simplify.1.Simplify.1 = m.Simplify.1 := by
    show (IndexingMap.Simplify _).1 = _
    simp only [IndexingMap.Simplify, keptRanges_idem]
    congr 1
    · congr 1
      rw [List.map_map]
      apply List.map_congr_left
      intro e _
      show simplifyExpr _ _ (substSyms _ (simplifyExpr _ _ _)) = _
      rw [substSyms_id hσ, simplifyExpr_idem]
  rw [show m.Simplify.1.Simplify = (m.Simplify.1.Simplify.1,
        decide (m.Simplify.1.Simplify.1 ≠ m.Simplify.1)) from rfl]
  rw [hm']
  simp

/-- Simplification is semantics-preserving on the domain: the simplified
map, evaluated with the collapsed symbols removed from the assignment,
produces the same input indices as the original map. -/
lemma Simplify_eval {m : IndexingMap} (hwf : m.wellFormed = true)
    {ds ss : List Int} (hd : valuesInRanges m.domain.dimension_ranges ds = true)
    (hs : valuesInRanges m.domain.symbol_ranges ss = true) :
    m.Simplify.1.evalResults ds (filterKeptVals m.domain.symbol_ranges ss) =
      m.evalResults ds ss := by
  simp only [IndexingMap.wellFormed, Bool.and_eq_true, decide_eq_true_eq,
    List.all_eq_true] at hwf
  show List.map _ (List.map _ _) = _
  rw [List.map_map, IndexingMap.evalResults]
  apply List.map_congr_left
  intro e he
  have hwe : e.wfB m.affine_map.numDims m.affine_map.numSymbols = true := hwf.2 e he
  show (simplifyExpr _ _ (substSyms _ e)).eval _ _ = _
  rw [simplifyExpr_eval hd (filterKeptVals_inRanges hs)]
  exact substSyms_eval
    (fun j hj => collapseSubst_eval ds hs j (by rw [hwf.1.2]; exact hj)) hwe

lemma factorResults_none_iff (t : SymbolicTile) (mSyms : Nat) (es : List AffineExpr) :
    factorResults t mSyms es = none ↔
      ∃ e ∈ es, (substTileExpr t mSyms e).bind TileLinear.factor = none := by
  induction es with
  | nil => simp [factorResults]
  | cons e es ih =>
    cases hr : (substTileExpr t mSyms e).bind TileLinear.factor with
    | none =>
      have hex : ∃ e' ∈ e :: es, (substTileExpr t mSyms e').bind TileLinear.factor = none :=
        ⟨e, List.mem_cons_self _ _, hr⟩
      simp only [factorResults, hr]
      constructor
      · intro _; exact hex
      · intro _; trivial
    | some r =>
      cases hrs : factorResults t mSyms es with
      | none =>
        have hex : ∃ e' ∈ e :: es,
            (substTileExpr t mSyms e').bind TileLinear.factor = none := by
          rcases ih.mp hrs with ⟨e', he', hne⟩
          exact ⟨e', List.mem_cons_of_mem _ he', hne⟩
        simp only [factorResults, hr, hrs]
        constructor
        · intro _; exact hex
        · intro _; trivial
      | some rs =>
        simp only [factorResults, hr, hrs]
        constructor
        · intro h; exact absurd h (by simp)
        · rintro ⟨e', he', hne⟩
          rcases List.mem_cons.mp he' with h | h
          · subst h; rw [hr] at hne; exact absurd hne (by simp)
          · have := ih.mpr ⟨e', h, hne⟩
            rw [hrs] at this
            exact absurd this (by simp)

lemma getD_eq_getElem {α : Type} (l : List α) (d : α) {n : Nat} (h : n < l.length) :
    l.getD n d = l[n] := by
  simp [List.getD_eq_getElem?_getD, List.getElem?_eq_getElem h]

/-- C6: for every pair of bound lists, `Domain.FromUpperBounds` builds the
range `[0, bound)` for every entry, dimension ranges first then symbol
ranges, preserving input order; in particular `FromUpperBounds([150,10],
[20,50])` yields dimension ranges `[0,150)`, `[0,10)` then symbol ranges
`[0,20)`, `[0,50)`. -/
theorem claim_C6_from_upper_bounds :
    (∀ (dbs sbs : List Int),
      (Domain.FromUpperBounds dbs sbs).dimension_ranges.length = dbs.length ∧
      (Domain.FromUpperBounds dbs sbs).symbol_ranges.length = sbs.length ∧
      (∀ i : Nat, i < dbs.length →
        (Domain.FromUpperBounds dbs sbs).dimension_ranges.getD i ⟨0, 0⟩ =
          ⟨0, dbs.getD i 0⟩) ∧
      (∀ i : Nat, i < sbs.length →
        (Domain.FromUpperBounds dbs sbs).symbol_ranges.getD i ⟨0, 0⟩ =
          ⟨0, sbs.getD i 0⟩)) ∧
    Domain.FromUpperBounds [150, 10] [20, 50] =
      { dimension_ranges := [⟨0, 150⟩, ⟨0, 10⟩]
        symbol_ranges := [⟨0, 20⟩, ⟨0, 50⟩] } := by
  refine ⟨fun dbs sbs => ⟨by simp [Domain.FromUpperBounds],
    by simp [Domain.FromUpperBounds], ?_, ?_⟩, by decide⟩
  · intro i hi
    show (dbs.map fun ub => Range.mk 0 ub).getD i ⟨0, 0⟩ = _
    rw [getD_eq_getElem _ _ (by simpa using hi), List.getElem_map,
      getD_eq_getElem _ _ hi]
  · intro i hi
    show (sbs.map fun ub => Range.mk 0 ub).getD i ⟨0, 0⟩ = _
    rw [getD_eq_getElem _ _ (by simpa using hi), List.getElem_map,
      getD_eq_getElem _ _ hi]

theorem claim_C6_witness :
    (Domain.FromUpperBounds [150, 10] [20, 50]).dimension_ranges.getD 1 ⟨0, 0⟩ =
      ⟨0, 10⟩ ∧
    (Domain.FromUpperBounds [150, 10] [20, 50]).symbol_ranges.getD 1 ⟨0, 0⟩ =
      ⟨0, 50⟩ :=
  ⟨(claim_C6_from_upper_bounds.1 [150, 10] [20, 50]).2.2.1 1 (by decide),
   (claim_C6_from_upper_bounds.1 [150, 10] [20, 50]).2.2.2 1 (by decide)⟩

/-- C10: hash/equality congruence of `IndexingMap` — any two maps that
compare equal under the modelled `operator==` (structural equality of affine
map and domain) receive the same `AbslHashValue`-style hash, the invariant
required for deduplication in a hash set of indexing maps. -/
theorem claim_C10_hash_congruence (a b : IndexingMap)
    (h : IndexingMap.beqv a b = true) : a.hashv = b.hashv := by
  simp only [IndexingMap.beqv, Bool.and_eq_true, decide_eq_true_eq] at h
  rw [IndexingMap.hashv, IndexingMap.hashv, h.1, h.2]

/-- C10 witness: two separately constructed but structurally equal maps hash
equally. -/
theorem claim_C10_witness :
    IndexingMap.beqv (identityIndexingMap [4]) mapC10 = true ∧
    (identityIndexingMap [4]).hashv = mapC10.hashv :=
  ⟨by decide, claim_C10_hash_congruence _ _ (by decide)⟩

/-- C8: interval-bound inference is conservative — for every well-formed
affine expression and assignment inside the domain ranges, the value lies in
the inferred interval — and monotone — pointwise tighter domain ranges never
produce a looser inferred interval. -/
theorem claim_C8_bound_inference :
    (∀ (dims syms : List Range) (ds ss : List Int) (e : AffineExpr),
      valuesInRanges dims ds = true → valuesInRanges syms ss = true →
      e.wfB dims.length syms.length = true →
      (inferBounds dims syms e).min ≤ e.eval ds ss ∧
        e.eval ds ss ≤ (inferBounds dims syms e).max) ∧
    (∀ (dims' dims syms' syms : List Range) (e : AffineExpr) (D S : Nat),
      TighterRanges dims' dims → TighterRanges syms' syms →
      e.wfB D S = true →
      (inferBounds dims' syms' e).subset (inferBounds dims syms e)) :=
  ⟨fun _ _ _ _ _ hd hs hw => inferBounds_sound hd hs hw,
   fun _ _ _ _ _ _ _ hd hs hw => inferBounds_mono hd hs hw⟩

/-- C8 witness: soundness at `d0 + 3` over `d0 in [0, 10)` evaluated at 7,
and monotonicity after tightening `[0, 10)` to `[2, 8)`. -/
theorem claim_C8_witness :
    ((inferBounds [⟨0, 10⟩] [] (.add (.dim 0) (.const 3))).min ≤
        AffineExpr.eval [7] [] (.add (.dim 0) (.const 3)) ∧
      AffineExpr.eval [7] [] (.add (.dim 0) (.const 3)) ≤
        (inferBounds [⟨0, 10⟩] [] (.add (.dim 0) (.const 3))).max) ∧
    (inferBounds [⟨2, 8⟩] [] (.dim 0)).subset (inferBounds [⟨0, 10⟩] [] (.dim 0)) := by
  constructor
  · exact claim_C8_bound_inference.1 [⟨0, 10⟩] [] [7] [] _ (by decide) (by decide)
      (by decide)
  · refine claim_C8_bound_inference.2 [⟨2, 8⟩] [⟨0, 10⟩] [] [] (.dim 0) 1 0 ?_ ?_
      (by decide)
    · intro i
      cases i with
      | zero => exact ⟨by norm_num, by norm_num⟩
      | succ n => exact ⟨le_refl 0, le_refl 0⟩
    · intro i
      cases i with
      | zero => exact ⟨le_refl 0, le_refl 0⟩
      | succ n => exact ⟨le_refl 0, le_refl 0⟩

/-- C3: `IndexingMap::Simplify` is idempotent — a second call returns the
same map and reports no change — and semantics-preserving — on well-formed
maps, the simplified map evaluated with the collapsed symbols removed from
the assignment produces the same input indices on the whole domain. -/
theorem claim_C3_simplify (m : IndexingMap) :
    m.Simplify.1.Simplify = (m.Simplify.1, false) ∧
    (m.wellFormed = true →
      ∀ ds ss : List Int,
        valuesInRanges m.domain.dimension_ranges ds = true →
        valuesInRanges m.domain.symbol_ranges ss = true →
        m.Simplify.1.evalResults ds (filterKeptVals m.domain.symbol_ranges ss) =
          m.evalResults ds ss) :=
  ⟨Simplify_idem m, fun hwf _ _ hd hs => Simplify_eval hwf hd hs⟩

/-- C3 witness: a map with one collapsible symbol (`s0 in [5, 6)`), applied
at a concrete in-domain point. -/
theorem claim_C3_witness :
    mapC3.Simplify.1.Simplify = (mapC3.Simplify.1, false) ∧
    mapC3.Simplify.1.evalResults [3] (filterKeptVals mapC3.domain.symbol_ranges [5]) =
      mapC3.evalResults [3] [5] :=
  ⟨(claim_C3_simplify mapC3).1,
   (claim_C3_simplify mapC3).2 (by decide) [3] [5] (by decide) (by decide)⟩

/-- C2: tile propagation through an indexing map returns an empty result
exactly when some composed result fails to re-factor into strided form, and
a successful result is a fully populated tile (its per-symbol size and
max-size lists stay aligned); the input tile is a value that the pure
operation never mutates. -/
theorem claim_C2_propagation_failure (t : SymbolicTile) (m : IndexingMap) :
    (t.TryPropagateTileThroughIndexingMap m = none ↔
      ∃ e ∈ m.affine_map.results,
        (substTileExpr t m.affine_map.numSymbols e).bind TileLinear.factor = none) ∧
    (∀ t', t.TryPropagateTileThroughIndexingMap m = some t' →
      t.sizes.length = t.max_sizes.length →
      t'.sizes.length = t'.max_sizes.length) := by
  constructor
  · rw [SymbolicTile.TryPropagateTileThroughIndexingMap]
    rw [Option.map_eq_none']
    exact factorResults_none_iff t _ _
  · intro t' hsome hlen
    rw [SymbolicTile.TryPropagateTileThroughIndexingMap] at hsome
    cases hf : factorResults t m.affine_map.numSymbols m.affine_map.results with
    | none => rw [hf] at hsome; cases hsome
    | some rs =>
      rw [hf] at hsome
      simp only [Option.map_some'] at hsome
      have ht' := Option.some.inj hsome
      subst ht'
      simp [hlen]

/-- C2 witness: a successful propagation on a concrete tile keeps the size
lists aligned. -/
theorem claim_C2_witness : tileC2'.sizes.length = tileC2'.max_sizes.length :=
  (claim_C2_propagation_failure tileC2 mapC2).2 tileC2' (by decide) (by decide)

/-- C7: on a successful propagation, the symbols introduced by the indexing
map precede the tile's pre-existing symbols — both the max-size and size
lists are the indexing map's domain bounds followed by the original tile's
entries. -/
theorem claim_C7_symbol_ordering (t : SymbolicTile) (m : IndexingMap)
    (t' : SymbolicTile) (h : t.TryPropagateTileThroughIndexingMap m = some t') :
    t'.max_sizes = (m.domain.symbol_ranges.map fun r => r.upper_bound) ++ t.max_sizes ∧
    t'.sizes = (m.domain.symbol_ranges.map fun r => some r.upper_bound) ++ t.sizes := by
  rw [SymbolicTile.TryPropagateTileThroughIndexingMap] at h
  cases hf : factorResults t m.affine_map.numSymbols m.affine_map.results with
  | none => rw [hf] at h; cases h
  | some rs =>
    rw [hf] at h
    simp only [Option.map_some'] at h
    have ht' := Option.some.inj h
    subst ht'
    exact ⟨rfl, rfl⟩

/-- C7 witness: propagating through a reduce-shaped map with one new symbol
(bound 5) onto a tile with one size (bound 8) yields max sizes `[5, 8]` —
the new symbol first. -/
theorem claim_C7_witness :
    tileC7'.max_sizes = [5, 8] ∧ tileC7'.sizes = [some 5, none] :=
  claim_C7_symbol_ordering tileC7 mapC7 tileC7' (by decide)

/-- C4: for every permutation `p` of `[0, n)`, composing
`ComputeTransposeIndexingMap(p)` with `ComputeTransposeIndexingMap` of the
inverse permutation yields the identity map, and
`ComputeTransposeIndexingMap(p)` maps output dimension `i` to input
dimension `p[i]`. -/
theorem claim_C4_transpose (p : List Nat) (hsurj : ∀ i, i < p.length → i ∈ p) :
    AffineMap.compose (ComputeTransposeIndexingMap p)
        (ComputeTransposeIndexingMap (inversePerm p)) =
      identityAffineMap p.length ∧
    ∀ i : Nat, i < p.length →
      (ComputeTransposeIndexingMap p).results.getD i (.const 0) = .dim (p.getD i 0) := by
  constructor
  · rw [AffineMap.compose, identityAffineMap]
    simp only [AffineMap.mk.injEq]
    refine ⟨rfl, rfl, ?_⟩
    show ((inversePerm p).map AffineExpr.dim).map _ = _
    rw [inversePerm, List.map_map, List.map_map]
    apply List.map_congr_left
    intro i hi
    have hi' : i < p.length := List.mem_range.mp hi
    have hmem : i ∈ p := hsurj i hi'
    have hidx : p.indexOf i < p.length := List.indexOf_lt_length.mpr hmem
    simp only [Function.comp_apply, AffineExpr.substVars]
    show (p.map AffineExpr.dim).getD (p.indexOf i) (.const 0) = AffineExpr.dim i
    rw [getD_eq_getElem _ _ (by simpa using hidx), List.getElem_map]
    exact congrArg AffineExpr.dim (List.getElem_indexOf hidx)
  · intro i hi
    show (p.map AffineExpr.dim).getD i (.const 0) = _
    rw [getD_eq_getElem _ _ (by simpa using hi), List.getElem_map,
      getD_eq_getElem _ _ hi]

/-- C4 witness: the involution and the pointwise mapping at the concrete
permutation `[2, 0, 1]`. -/
theorem claim_C4_witness :
    AffineMap.compose (ComputeTransposeIndexingMap [2, 0, 1])
        (ComputeTransposeIndexingMap (inversePerm [2, 0, 1])) =
      identityAffineMap 3 ∧
    (ComputeTransposeIndexingMap [2, 0, 1]).results.getD 1 (.const 0) = .dim 0 := by
  have h := claim_C4_transpose [2, 0, 1] (by decide)
  exact ⟨h.1, h.2 1 (by decide)⟩

lemma filtered_domain_value {inShape : List Int} {l : List Nat} {vals : List Int}
    (hv : valuesInRanges
      ((l.map fun i => inShape.getD i 0).map fun ub => Range.mk 0 ub) vals = true)
    {k : Nat} (hmem : k ∈ l) :
    0 ≤ vals.getD (l.indexOf k) 0 ∧ vals.getD (l.indexOf k) 0 < inShape.getD k 0 := by
  have hidx : l.indexOf k < l.length := List.indexOf_lt_length.mpr hmem
  have hlen : ((l.map fun i => inShape.getD i 0).map fun ub => Range.mk 0 ub).length =
      l.length := by simp
  have hc := valuesInRanges_getD hv (i := l.indexOf k) (by rw [hlen]; exact hidx)
  rw [getD_eq_getElem _ _ (by rw [hlen]; exact hidx)] at hc
  simp only [List.getElem_map] at hc
  rw [List.getElem_indexOf hidx] at hc
  simpa [Range.contains] using hc

/-- C5: for every reduce, output→input indexing keeps non-reduced axes as
dimensions and introduces one symbol per reduced axis ranged `[0, size)` —
evaluated on any in-domain point, the input coordinate of a reduced axis is
the corresponding symbol value, that of a kept axis is the corresponding
dimension value, and every coordinate lies in `[0, axis size)`; in
particular for input shape `[150,20,10,50]` with reduced axes `{1,3}` the
map is `(d0,d1)[s0,s1] -> (d0,s0,d1,s1)` with `d0 in [0,150)`,
`d1 in [0,10)`, `s0 in [0,20)`, `s1 in [0,50)`. -/
theorem claim_C5_reduce :
    (∀ (inShape : List Int) (rdims : List Nat) (ds ss : List Int),
      valuesInRanges
        (ComputeReduceOutputToInputIndexing inShape rdims).domain.dimension_ranges
        ds = true →
      valuesInRanges
        (ComputeReduceOutputToInputIndexing inShape rdims).domain.symbol_ranges
        ss = true →
      ∀ k, k < inShape.length →
        (k ∈ rdims →
          (((ComputeReduceOutputToInputIndexing inShape
              rdims).affine_map.results.getD k (.const 0)).eval ds ss =
            ss.getD
              (((List.range inShape.length).filter fun i => i ∈ rdims).indexOf k) 0)) ∧
        (k ∉ rdims →
          (((ComputeReduceOutputToInputIndexing inShape
              rdims).affine_map.results.getD k (.const 0)).eval ds ss =
            ds.getD
              (((List.range inShape.length).filter fun i => i ∉ rdims).indexOf k) 0)) ∧
        0 ≤ (((ComputeReduceOutputToInputIndexing inShape
            rdims).affine_map.results.getD k (.const 0)).eval ds ss) ∧
        (((ComputeReduceOutputToInputIndexing inShape
            rdims).affine_map.results.getD k (.const 0)).eval ds ss) <
          inShape.getD k 0) ∧
    ComputeReduceOutputToInputIndexing [150, 20, 10, 50] [1, 3] =
      { affine_map :=
          { numDims := 2, numSymbols := 2
            results := [.dim 0, .sym 0, .dim 1, .sym 1] }
        domain :=
          { dimension_ranges := [⟨0, 150⟩, ⟨0, 10⟩]
            symbol_ranges := [⟨0, 20⟩, ⟨0, 50⟩] } } := by
  refine ⟨?_, by decide⟩
  intro inShape rdims ds ss hd hs k hk
  have hres : (ComputeReduceOutputToInputIndexing inShape
      rdims).affine_map.results.getD k (.const 0) =
      (if k ∈ rdims then
        AffineExpr.sym (((List.range inShape.length).filter fun i => i ∈ rdims).indexOf k)
      else
        AffineExpr.dim
          (((List.range inShape.length).filter fun i => i ∉ rdims).indexOf k)) := by
    have hr : (ComputeReduceOutputToInputIndexing inShape rdims).affine_map.results =
        (List.range inShape.length).map fun k =>
          if k ∈ rdims then
            AffineExpr.sym
              (((List.range inShape.length).filter fun i => i ∈ rdims).indexOf k)
          else
            AffineExpr.dim
              (((List.range inShape.length).filter fun i => i ∉ rdims).indexOf k) := rfl
    rw [hr, getD_eq_getElem _ _ (by simpa using hk), List.getElem_map, List.getElem_range]
  by_cases hkr : k ∈ rdims
  · have hmem : k ∈ (List.range inShape.length).filter fun i => i ∈ rdims :=
      List.mem_filter.mpr ⟨List.mem_range.mpr hk, by simpa using hkr⟩
    have hs' : valuesInRanges
        ((((List.range inShape.length).filter fun i => i ∈ rdims).map
          fun i => inShape.getD i 0).map fun ub => Range.mk 0 ub) ss = true := hs
    have hb := filtered_domain_value hs' hmem
    rw [hres, if_pos hkr]
    exact ⟨fun _ => rfl, fun h => absurd hkr h, hb.1, hb.2⟩
  · have hmem : k ∈ (List.range inShape.length).filter fun i => i ∉ rdims :=
      List.mem_filter.mpr ⟨List.mem_range.mpr hk, by simpa using hkr⟩
    have hd' : valuesInRanges
        ((((List.range inShape.length).filter fun i => i ∉ rdims).map
          fun i => inShape.getD i 0).map fun ub => Range.mk 0 ub) ds = true := hd
    have hb := filtered_domain_value hd' hmem
    rw [hres, if_neg hkr]
    exact ⟨fun h => absurd h hkr, fun _ => rfl, hb.1, hb.2⟩

/-- C5 witness: the general characterization applied at the scenario's
shape, reduced axes `{1,3}`, and the in-domain point `ds = [140, 9]`,
`ss = [19, 49]`, axis 3. -/
theorem claim_C5_witness :
    (((ComputeReduceOutputToInputIndexing [150, 20, 10, 50]
        [1, 3]).affine_map.results.getD 3 (.const 0)).eval [140, 9] [19, 49] =
      [19, 49].getD
        (((List.range 4).filter fun i => i ∈ [1, 3]).indexOf 3) 0) ∧
    0 ≤ (((ComputeReduceOutputToInputIndexing [150, 20, 10, 50]
        [1, 3]).affine_map.results.getD 3 (.const 0)).eval [140, 9] [19, 49]) := by
  have h := (claim_C5_reduce.1 [150, 20, 10, 50] [1, 3] [140, 9] [19, 49]
    (by decide) (by decide) 3 (by decide))
  exact ⟨h.1 (by decide), h.2.2.1⟩

/-- C1: evidence that the header comment of tile_analysis.h (lines 90–96) is
a slip and the spec's `n - 1 - d` rule is the intent. The map exactly as
documented in the header (`(d0, -d1 + 17, -d2 + 9, d3)`) sends output index
`(0,0,0,0)` to input coordinates `(0,17,9,0)` — coordinate 17 is outside the
input axis bound `[0,17)` — while the spec-modelled reverse rule for shape
`[1,17,9,9]` with reversed axes `{1,2}` produces `(d0, -d1 + 16, -d2 + 8,
d3)`, sending `(0,0,0,0)` to `(0,16,8,0)`, inside bounds, with every output
dimension ranged `[0, size_i)`. -/
theorem claim_C1_reverse_header_bug :
    (headerReverseExampleMap.evalResults [0, 0, 0, 0] [] = [0, 17, 9, 0] ∧
      ¬ (Range.mk 0 17).contains 17 ∧ ¬ (Range.mk 0 9).contains 9) ∧
    (ComputeOutputToInputIndexing (.reverse [1, 17, 9, 9] [1, 2]) 0 =
      .ok (.FromIndexingMaps [ComputeReverseIndexingMap [1, 17, 9, 9] [1, 2]]) ∧
      (ComputeReverseIndexingMap [1, 17, 9, 9] [1, 2]).affine_map.results =
        [.dim 0, .add (.mul (.dim 1) (-1)) (.const 16),
          .add (.mul (.dim 2) (-1)) (.const 8), .dim 3] ∧
      (ComputeReverseIndexingMap [1, 17, 9, 9] [1, 2]).evalResults [0, 0, 0, 0] [] =
        [0, 16, 8, 0] ∧
      (Range.mk 0 17).contains 16 ∧ (Range.mk 0 9).contains 8 ∧
      (ComputeReverseIndexingMap [1, 17, 9, 9] [1, 2]).domain =
        Domain.FromUpperBounds [1, 17, 9, 9] []) := by
  exact ⟨⟨by decide, by decide, by decide⟩,
    ⟨by rfl, by decide, by decide, by decide, by decide, by decide⟩⟩

/-- C9: `ComputeOutputToInputIndexing` and `ComputeInputToOutputIndexing`
are total on the closed operation variant: they return a successful
`HloInstructionIndexing` exactly when the documented failure condition is
absent, and otherwise the error naming the unsupported aspect (unknown op
kind, data-dependent indices, non-factoring reshape, interior padding, or
invalid operand/output id) — never any other outcome. -/
theorem claim_C9_error_taxonomy :
    ∀ (op : HloOp) (oid iid : Nat),
      exceptError (ComputeOutputToInputIndexing op oid) = outputToInputFailure op oid ∧
      exceptError (ComputeInputToOutputIndexing op iid) = inputToOutputFailure op iid := by
  intro op oid iid
  constructor
  · by_cases ho : oid = 0
    · subst ho
      cases op <;>
        simp only [ComputeOutputToInputIndexing, outputToInputFailure, ne_eq,
          eq_self_iff_true, not_true, if_false] <;>
        (repeat' split) <;>
        simp [exceptError]
    · simp [ComputeOutputToInputIndexing, outputToInputFailure, ho, exceptError]
  · cases op <;>
      simp only [ComputeInputToOutputIndexing, inputToOutputFailure] <;>
      (repeat' split) <;>
      simp [exceptError]

end TileAnalysis
